import Mathlib

/-! The finalizable-handle bridge of `realm_dart.cpp`.

A shallow embedding of `src/realm_dart.cpp`.  The C++ functions are thin
wrappers over the host runtime's dynamic API (`Dart_*_DL`), over the native
engine's `realm_release` and over `new`/`delete`; they become state-passing
Lean functions over an explicit `State` that holds the runtime's table of
finalizable handles, the set of collected objects, the native heap of
`GCHandle` records and a chronological trace of the calls that are observable
on the native side.

Pointers (`void*`, `Dart_Handle`, `Dart_FinalizableHandle`) are natural
numbers.  A `Dart_Handle` is identified with the managed object it refers to.
Undefined behaviour of the C++ program (a call through the uninitialised API
table, the use of a handle of a collected object, the dereference or the
`delete` of a dangling `GCHandle*`) is the result `none`.

The host runtime and the native engine are not part of the source file.  They
are modelled from the interface the specification gives them, with these
choices: a finalizable handle is issued once and never reused; collecting an
object runs all finalizers registered on it, newest first, as one step; the
exported `realm_delete_finalizable` takes any natural number as its handle
argument, as the C++ function takes any `Dart_FinalizableHandle`.

The allocator behind `new` is not part of the source file either.  The address
it returns is a parameter of `object_to_gc_handle`: it may be any address that
holds no live record, the address of a record that was deleted before included.
-/

namespace RealmDart

/-! ## Data model -/

/-- The two functions of `realm_dart.cpp` whose address is handed to the
runtime as a finalization callback. -/
inductive Callback where
  | handle_finalizer
  | finalize_handle
  deriving DecidableEq, Repr

/-- One entry of the runtime's table of finalizable handles: the arguments of
`Dart_NewFinalizableHandle_DL(object, peer, external_allocation_size, callback)`
together with the `Dart_FinalizableHandle` that the call returned. -/
structure Finalizable where
  token : Nat
  object : Nat
  peer : Nat
  size : Int
  callback : Callback
  deriving DecidableEq, Repr

/-- What the native side can observe: the collector starting the callback of a
registration, a call of `realm_release`, and the `delete` of a `GCHandle`. -/
inductive Event where
  | fire (token : Nat)
  | release (ptr : Nat)
  | destroy (addr : Nat)
  deriving DecidableEq, Repr

/-- The data members of `class GCHandle`: the single field `m_weakHandle`. -/
structure GCHandle where
  m_weakHandle : Nat
  deriving DecidableEq, Repr

/-- The state of the process: the API table flag, the collected objects, the
runtime's pending finalizable handles (newest first) and its next fresh
handle, the live `GCHandle` records by address (newest first), and the trace
of observable events (oldest first). -/
structure State where
  apiReady : Bool
  dead : List Nat
  finalizables : List Finalizable
  nextToken : Nat
  heap : List (Nat × GCHandle)
  trace : List Event
  deriving DecidableEq, Repr

/-- The state of a fresh process: nothing initialised, registered, allocated or
collected.  The handle `0` is the null pointer and is never issued. -/
def State.initial : State :=
  { apiReady := false, dead := [], finalizables := [], nextToken := 1,
    heap := [], trace := [] }

/-! ## The external collaborators -/

/-- Modelled from the spec: `Dart_InitializeApiDL` of the host runtime, which is
not part of `realm_dart.cpp`.  "one-time dynamic API table initialization,
invoked once per process/isolate before any other operation in this bridge is
used". -/
def Dart_InitializeApiDL (_data : Nat) (s : State) : State :=
  { s with apiReady := true }

/-- Modelled from the spec: `Dart_NewFinalizableHandle_DL` of the host runtime,
`newFinalizableHandle(managedHandle, payload, size, callback) ->
FinalizableHandleToken`.  It adds one registration under a handle that was
never issued before and runs no callback.  A call before the API table is
initialised, or with the handle of a collected object, is undefined. -/
def Dart_NewFinalizableHandle_DL (object peer : Nat) (external_allocation_size : Int)
    (callback : Callback) (s : State) : Option (Nat × State) :=
  if s.apiReady = true ∧ object ∉ s.dead then
    some (s.nextToken,
      { s with
        finalizables :=
          ⟨s.nextToken, object, peer, external_allocation_size, callback⟩ :: s.finalizables,
        nextToken := s.nextToken + 1 })
  else none

/-- Modelled from the spec: `Dart_DeleteFinalizableHandle_DL` of the host
runtime, `deleteFinalizableHandle(token, managedHandle) -> void`.  It "cancels
the pending registration without invoking the release callback"; "calling on an
already-fired or already-detached registration is a no-op (the underlying
runtime is responsible for this guarantee)".  The second argument is "the
managed handle it was created from"; a call with another handle on a pending
registration, or before the API table is initialised, is undefined. -/
def Dart_DeleteFinalizableHandle_DL (object strong_ref_to_object : Nat) (s : State) :
    Option State :=
  if s.apiReady = true then
    match s.finalizables.find? (fun r => r.token == object) with
    | none => some s
    | some r =>
      if r.object = strong_ref_to_object then
        some { s with finalizables := s.finalizables.filter (fun r => r.token != object) }
      else none
  else none

/-- Modelled from the spec: `Dart_HandleFromWeakPersistent_DL` of the host
runtime, `handleFromWeakPersistent(weakToken) -> ManagedObjectHandle (liveness
assumed)`: the object of the pending registration; undefined for a handle that
is not pending or before the API table is initialised. -/
def Dart_HandleFromWeakPersistent_DL (object : Nat) (s : State) : Option Nat :=
  if s.apiReady = true then
    (s.finalizables.find? (fun r => r.token == object)).map Finalizable.object
  else none

/-- Modelled from the spec: `realm_release` of the native engine,
`release(pointer) -> void`, which never fails.  The call is recorded in the
trace. -/
def realm_release (ptr : Nat) (s : State) : State :=
  { s with trace := s.trace ++ [Event.release ptr] }

/-! ## `realm_dart.cpp` -/

/-- The function `RLM_API void realm_initializeDartApiDL(void* data)`. -/
def realm_initializeDartApiDL (data : Nat) (s : State) : State :=
  Dart_InitializeApiDL data s

/-- The function `void handle_finalizer(void* isolate_callback_data, void* realmPtr)`. -/
def handle_finalizer (_isolate_callback_data realmPtr : Nat) (s : State) : State :=
  realm_release realmPtr s

/-- The function `RLM_API Dart_FinalizableHandle realm_attach_finalizer(Dart_Handle handle,
void* realmPtr, int size)`. -/
def realm_attach_finalizer (handle realmPtr : Nat) (size : Int) (s : State) :
    Option (Nat × State) :=
  Dart_NewFinalizableHandle_DL handle realmPtr size Callback.handle_finalizer s

/-- The function `RLM_API void realm_delete_finalizable(Dart_FinalizableHandle
finalizable_handle, Dart_Handle handle)`. -/
def realm_delete_finalizable (finalizable_handle handle : Nat) (s : State) : Option State :=
  Dart_DeleteFinalizableHandle_DL finalizable_handle handle s

set_option linter.dupNamespace false in
/-- The constructor `GCHandle(Dart_Handle handle, bool hard)`, run on the
storage at address `this`: its initialiser list sets `m_weakHandle` to
`Dart_NewFinalizableHandle_DL(handle, this, 1, finalize_handle)`. -/
def GCHandle.GCHandle (this handle : Nat) (_hard : Bool) (s : State) :
    Option (GCHandle × State) :=
  match Dart_NewFinalizableHandle_DL handle this 1 Callback.finalize_handle s with
  | none => none
  | some (weakHandle, s1) => some (⟨weakHandle⟩, s1)

/-- The method `Dart_Handle GCHandle::value()`, called on the pointer `this`: reads
`m_weakHandle` of the record and returns
`Dart_HandleFromWeakPersistent_DL(weakHnd)`.  Undefined when `this` is not the
address of a live record. -/
def GCHandle.value (this : Nat) (s : State) : Option (Nat × State) :=
  match s.heap.find? (fun p => p.1 == this) with
  | none => none
  | some p =>
    match Dart_HandleFromWeakPersistent_DL p.2.m_weakHandle s with
    | none => none
    | some handle => some (handle, s)

/-- The function `static void GCHandle::finalize_handle(void* isolate_callback_data, void*
peer)`: `delete reinterpret_cast<GCHandle*>(peer)`.  The record at `peer` is
freed; the `delete` of an address that holds no live record is undefined. -/
def GCHandle.finalize_handle (_isolate_callback_data peer : Nat) (s : State) : Option State :=
  match s.heap.find? (fun p => p.1 == peer) with
  | none => none
  | some _ =>
    some { s with
      heap := s.heap.filter (fun p => p.1 != peer),
      trace := s.trace ++ [Event.destroy peer] }

/-- The function `RLM_API void* object_to_gc_handle(Dart_Handle handle)`:
`new GCHandle(handle, false)`.  The allocator is not part of the source, and
the address `storage` that `operator new` returns in this call is a parameter:
any address, used before or not, that holds no live record.  A call in which
`operator new` returns the address of a live record does not exist (`none`).
The constructor runs on the storage and the address is returned. -/
def object_to_gc_handle (handle storage : Nat) (s : State) : Option (Nat × State) :=
  if s.heap.any (fun p => p.1 == storage) then none
  else
    match GCHandle.GCHandle storage handle false s with
    | none => none
    | some (g, s1) => some (storage, { s1 with heap := (storage, g) :: s1.heap })

/-- The function `RLM_API Dart_Handle gc_handle_to_object(void* handle)`:
`reinterpret_cast<GCHandle*>(handle)->value()`. -/
def gc_handle_to_object (handle : Nat) (s : State) : Option (Nat × State) :=
  GCHandle.value handle s

/-! ## The collector -/

/-- Modelled from the spec: the host runtime calling a registered callback
through its function pointer, with the payload of the registration. -/
def invokeCallback (callback : Callback) (isolate_callback_data peer : Nat) (s : State) :
    Option State :=
  match callback with
  | Callback.handle_finalizer => some (handle_finalizer isolate_callback_data peer s)
  | Callback.finalize_handle => GCHandle.finalize_handle isolate_callback_data peer s

/-- Modelled from the spec: the collector running the finalizers of the given
registrations one after the other, without interleaving other operations; each
start of a callback is recorded in the trace as `Event.fire`. -/
def runFinalizers : List Finalizable → State → Option State
  | [], s => some s
  | r :: rs, s =>
    match invokeCallback r.callback 0 r.peer
        { s with trace := s.trace ++ [Event.fire r.token] } with
    | none => none
    | some s1 => runFinalizers rs s1

/-- Modelled from the spec: the host runtime's collector, which is not part of
`realm_dart.cpp`.  "The collector determines the wrapped managed object is
unreachable, invokes the record's finalizer"; "the release callback fires at
most once per registration, triggered solely by the host runtime's collector".
Collecting an object removes every registration on it from the table and
invokes the callback of each with its payload.  An object is collected at most
once. -/
def collect (object : Nat) (s : State) : Option State :=
  if object ∈ s.dead then none
  else
    runFinalizers (s.finalizables.filter (fun r => r.object == object))
      { s with
        dead := object :: s.dead,
        finalizables := s.finalizables.filter (fun r => r.object != object) }

/-! ## Runs of the system -/

/-- The five exported operations of `realm_dart.cpp` with their arguments, and
the collection of an object by the runtime.  A call of `object_to_gc_handle`
also names the address its `operator new` returns. -/
inductive Op where
  | realm_initializeDartApiDL (data : Nat)
  | realm_attach_finalizer (handle realmPtr : Nat) (size : Int)
  | realm_delete_finalizable (finalizable_handle handle : Nat)
  | object_to_gc_handle (handle storage : Nat)
  | gc_handle_to_object (handle : Nat)
  | collect (object : Nat)
  deriving DecidableEq, Repr

/-- One step of the system; the value an operation returns is dropped. -/
def step (s : State) : Op → Option State
  | Op.realm_initializeDartApiDL data => some (realm_initializeDartApiDL data s)
  | Op.realm_attach_finalizer handle realmPtr size =>
    (realm_attach_finalizer handle realmPtr size s).map Prod.snd
  | Op.realm_delete_finalizable finalizable_handle handle =>
    realm_delete_finalizable finalizable_handle handle s
  | Op.object_to_gc_handle handle storage =>
    (object_to_gc_handle handle storage s).map Prod.snd
  | Op.gc_handle_to_object handle => (gc_handle_to_object handle s).map Prod.snd
  | Op.collect object => collect object s

/-- A sequence of steps; `none` as soon as one step is undefined. -/
def run (s : State) : List Op → Option State
  | [] => some s
  | op :: ops =>
    match step s op with
    | none => none
    | some s1 => run s1 ops

/-- The states the process can be in. -/
def Reachable (s : State) : Prop :=
  ∃ ops, run State.initial ops = some s

/-- Whether an event is the collector starting a callback. -/
def Event.isFire : Event → Bool
  | Event.fire _ => true
  | _ => false

/-- The events the callback of registration `token` performed when the
collector invoked it: what the trace holds after the first `fire token` up to
the next start of a callback. -/
def effectsOf (token : Nat) : List Event → List Event
  | [] => []
  | e :: es =>
    if e = Event.fire token then es.takeWhile (fun x => !x.isFire)
    else effectsOf token es

/-! ## Vocabulary of the proofs -/

/-- What the callback of a registration does when it is invoked with the
payload of the registration. -/
def Finalizable.effect (r : Finalizable) : Event :=
  match r.callback with
  | Callback.handle_finalizer => Event.release r.peer
  | Callback.finalize_handle => Event.destroy r.peer

/-- The events one registration adds to the trace when the collector fires
it: the start of its callback, then what the callback does. -/
def Finalizable.events (r : Finalizable) : List Event :=
  [Event.fire r.token, r.effect]

/-- Whether firing the registrations `rs` frees the record at address `a`. -/
def frees (rs : List Finalizable) (a : Nat) : Bool :=
  rs.any (fun r => r.callback == Callback.finalize_handle && r.peer == a)

/-- Whether an operation leaves the linkage of every live record alone: it is
not a `realm_delete_finalizable` of the `m_weakHandle` of a live record. -/
def linkageSafe (s : State) : Op → Bool
  | Op.realm_delete_finalizable finalizable_handle _ =>
    s.heap.all (fun p => p.2.m_weakHandle != finalizable_handle)
  | _ => true

/-- Whether every operation of a run leaves the linkage of the records that
are live when it is executed alone. -/
def disciplined (s : State) : List Op → Bool
  | [] => true
  | op :: ops =>
    linkageSafe s op &&
      match step s op with
      | none => true
      | some s1 => disciplined s1 ops

/-- The invariant of the reachable states. -/
structure Inv (s : State) : Prop where
  tok_lt : ∀ r ∈ s.finalizables, r.token < s.nextToken
  tok_nodup : (s.finalizables.map Finalizable.token).Nodup
  obj_live : ∀ r ∈ s.finalizables, r.object ∉ s.dead
  ready : ∀ r ∈ s.finalizables, s.apiReady = true
  heap_nodup : (s.heap.map Prod.fst).Nodup
  link_lt : ∀ p ∈ s.heap, p.2.m_weakHandle < s.nextToken
  link_nodup : (s.heap.map (fun p => p.2.m_weakHandle)).Nodup
  rec_of_reg : ∀ r ∈ s.finalizables, r.callback = Callback.finalize_handle →
    (r.peer, (⟨r.token⟩ : GCHandle)) ∈ s.heap
  fire_lt : ∀ t, Event.fire t ∈ s.trace → t < s.nextToken
  fire_pending : ∀ r ∈ s.finalizables, Event.fire r.token ∉ s.trace

/-! ## Concrete states of the scenarios -/

/-- A process right after `realm_initializeDartApiDL`. -/
def Demo.ready : State :=
  { apiReady := true, dead := [], finalizables := [], nextToken := 1,
    heap := [], trace := [] }

/-- The state `Demo.ready` after `realm_attach_finalizer(7, 0xAAAA, 8)`, which
returned the registration `1`. -/
def Demo.attached : State :=
  { apiReady := true, dead := [],
    finalizables := [⟨1, 7, 43690, 8, Callback.handle_finalizer⟩], nextToken := 2,
    heap := [], trace := [] }

/-- The state `Demo.attached` after `object_to_gc_handle(7)`, in which `new`
returned the address `1`, of a record whose `m_weakHandle` is `2`. -/
def Demo.attachedWrapped : State :=
  { apiReady := true, dead := [],
    finalizables := [⟨2, 7, 1, 1, Callback.finalize_handle⟩,
      ⟨1, 7, 43690, 8, Callback.handle_finalizer⟩],
    nextToken := 3, heap := [(1, ⟨2⟩)], trace := [] }

/-- The state `Demo.ready` after `object_to_gc_handle(7)`, in which `new`
returned the address `1`, of a record whose `m_weakHandle` is `1`. -/
def Demo.wrapped : State :=
  { apiReady := true, dead := [],
    finalizables := [⟨1, 7, 1, 1, Callback.finalize_handle⟩], nextToken := 2,
    heap := [(1, ⟨1⟩)], trace := [] }

/-- The state `Demo.wrapped` after `realm_delete_finalizable(1, 7)`: the record
at address `1` is live and its `m_weakHandle` is no longer registered. -/
def Demo.unlinked : State :=
  { apiReady := true, dead := [], finalizables := [], nextToken := 2,
    heap := [(1, ⟨1⟩)], trace := [] }

/-- The state `Demo.wrapped` after a second `object_to_gc_handle(7)`, in which
`new` returned the address `2`, of a record whose `m_weakHandle` is `2`. -/
def Demo.wrappedTwice : State :=
  { apiReady := true, dead := [],
    finalizables := [⟨2, 7, 2, 1, Callback.finalize_handle⟩,
      ⟨1, 7, 1, 1, Callback.finalize_handle⟩],
    nextToken := 3, heap := [(2, ⟨2⟩), (1, ⟨1⟩)], trace := [] }

/-- The state `Demo.wrapped` after `object_to_gc_handle(9)` at the address `2`,
`realm_attach_finalizer(7, 0xAAAA, 8)` and the collection of object `9`. -/
def Demo.wrappedBusy : State :=
  { apiReady := true, dead := [9],
    finalizables := [⟨3, 7, 43690, 8, Callback.handle_finalizer⟩,
      ⟨1, 7, 1, 1, Callback.finalize_handle⟩],
    nextToken := 4, heap := [(1, ⟨1⟩)], trace := [Event.fire 2, Event.destroy 2] }

/-- The state `Demo.wrapped` after the collection of object `7`, which deleted
the record at address `1`, and a call `object_to_gc_handle(9)` in which `new`
returned the address `1` again. -/
def Demo.reused : State :=
  { apiReady := true, dead := [7],
    finalizables := [⟨2, 9, 1, 1, Callback.finalize_handle⟩], nextToken := 3,
    heap := [(1, ⟨2⟩)], trace := [Event.fire 1, Event.destroy 1] }

/-! ## Lists with distinct keys -/

theorem find_of_nodup_key {α : Type} (f : α → Nat) :
    ∀ (l : List α) (x : α), (l.map f).Nodup → x ∈ l →
      l.find? (fun y => f y == f x) = some x := by
  intro l
  induction l with
  | nil => intro x _ hx; simp at hx
  | cons a l ih =>
    intro x hnd hx
    rw [List.map_cons, List.nodup_cons] at hnd
    rcases List.mem_cons.1 hx with rfl | hx
    · simp
    · have hne : f a ≠ f x := by
        intro h
        exact hnd.1 (h ▸ List.mem_map_of_mem f hx)
      rw [List.find?_cons_of_neg _ (by simpa using hne)]
      exact ih x hnd.2 hx

theorem eq_of_nodup_key {α : Type} (f : α → Nat) (l : List α) (x y : α)
    (hnd : (l.map f).Nodup) (hx : x ∈ l) (hy : y ∈ l) (h : f x = f y) : x = y := by
  have h1 := find_of_nodup_key f l x hnd hx
  have h2 := find_of_nodup_key f l y hnd hy
  rw [h] at h1
  rw [h1] at h2
  exact Option.some.inj h2

theorem find_none_of_no_key {α : Type} (f : α → Nat) (l : List α) (k : Nat)
    (h : ∀ x ∈ l, f x ≠ k) : l.find? (fun y => f y == k) = none := by
  rw [List.find?_eq_none]
  intro x hx
  simpa using h x hx

theorem pair_of_nodup_fst {β : Type} (l : List (Nat × β)) (a : Nat) (b c : β)
    (hnd : (l.map Prod.fst).Nodup) (hb : (a, b) ∈ l) (hc : (a, c) ∈ l) : b = c := by
  have h := eq_of_nodup_key Prod.fst l (a, b) (a, c) hnd hb hc rfl
  exact (Prod.mk.inj h).2

/-! ## What one operation does to the state -/

theorem newFinalizable_some (o p : Nat) (z : Int) (cb : Callback) (s s1 : State) (t : Nat)
    (h : Dart_NewFinalizableHandle_DL o p z cb s = some (t, s1)) :
    s.apiReady = true ∧ o ∉ s.dead ∧ t = s.nextToken ∧
      s1 = { s with
        finalizables := ⟨s.nextToken, o, p, z, cb⟩ :: s.finalizables,
        nextToken := s.nextToken + 1 } := by
  unfold Dart_NewFinalizableHandle_DL at h
  split at h
  · rename_i hc
    simp only [Option.some.injEq, Prod.mk.injEq] at h
    exact ⟨hc.1, hc.2, h.1.symm, h.2.symm⟩
  · simp at h

theorem newFinalizable_ok (o p : Nat) (z : Int) (cb : Callback) (s : State)
    (hr : s.apiReady = true) (ho : o ∉ s.dead) :
    Dart_NewFinalizableHandle_DL o p z cb s = some (s.nextToken,
      { s with
        finalizables := ⟨s.nextToken, o, p, z, cb⟩ :: s.finalizables,
        nextToken := s.nextToken + 1 }) := by
  unfold Dart_NewFinalizableHandle_DL
  rw [if_pos ⟨hr, ho⟩]

theorem attach_some (o p : Nat) (z : Int) (s s1 : State) (t : Nat)
    (h : realm_attach_finalizer o p z s = some (t, s1)) :
    s.apiReady = true ∧ o ∉ s.dead ∧ t = s.nextToken ∧
      s1 = { s with
        finalizables := ⟨s.nextToken, o, p, z, Callback.handle_finalizer⟩ :: s.finalizables,
        nextToken := s.nextToken + 1 } :=
  newFinalizable_some o p z Callback.handle_finalizer s s1 t h

theorem wrap_some (o a0 : Nat) (s s1 : State) (a : Nat)
    (h : object_to_gc_handle o a0 s = some (a, s1)) :
    s.apiReady = true ∧ o ∉ s.dead ∧ a = a0 ∧ (∀ p ∈ s.heap, p.1 ≠ a0) ∧
      s1 = { s with
        finalizables :=
          ⟨s.nextToken, o, a0, 1, Callback.finalize_handle⟩ :: s.finalizables,
        nextToken := s.nextToken + 1,
        heap := (a0, ⟨s.nextToken⟩) :: s.heap } := by
  unfold object_to_gc_handle GCHandle.GCHandle at h
  split at h
  · simp at h
  · rename_i hfree
    have hfree2 : ∀ p ∈ s.heap, p.1 ≠ a0 := by
      intro p hp he
      apply hfree
      rw [List.any_eq_true]
      exact ⟨p, hp, by simpa using he⟩
    cases hn : Dart_NewFinalizableHandle_DL o a0 1 Callback.finalize_handle s with
    | none => rw [hn] at h; simp at h
    | some r =>
      obtain ⟨t, s2⟩ := r
      rw [hn] at h
      obtain ⟨hr, ho, ht, hs2⟩ := newFinalizable_some _ _ _ _ _ _ _ hn
      simp only [Option.some.injEq, Prod.mk.injEq] at h
      refine ⟨hr, ho, h.1.symm, hfree2, ?_⟩
      rw [← h.2, hs2, ht]

theorem wrap_ok (o a0 : Nat) (s : State) (hr : s.apiReady = true) (ho : o ∉ s.dead)
    (hfree : ∀ p ∈ s.heap, p.1 ≠ a0) :
    object_to_gc_handle o a0 s = some (a0,
      { s with
        finalizables :=
          ⟨s.nextToken, o, a0, 1, Callback.finalize_handle⟩ :: s.finalizables,
        nextToken := s.nextToken + 1,
        heap := (a0, ⟨s.nextToken⟩) :: s.heap }) := by
  unfold object_to_gc_handle GCHandle.GCHandle
  have hany : s.heap.any (fun p => p.1 == a0) = false := by
    rw [List.any_eq_false]
    intro p hp
    simpa using hfree p hp
  rw [hany, newFinalizable_ok _ _ _ _ _ hr ho]
  simp

theorem delete_some (t o : Nat) (s s1 : State)
    (h : realm_delete_finalizable t o s = some s1) :
    s.apiReady = true ∧
      s1 = { s with finalizables := s.finalizables.filter (fun r => r.token != t) } := by
  unfold realm_delete_finalizable Dart_DeleteFinalizableHandle_DL at h
  split at h
  · rename_i hr
    refine ⟨hr, ?_⟩
    split at h
    · rename_i hf
      rw [List.find?_eq_none] at hf
      have hfil : s.finalizables.filter (fun r => r.token != t) = s.finalizables := by
        rw [List.filter_eq_self]
        intro x hx
        simpa using hf x hx
      rw [hfil]
      exact (Option.some.inj h).symm
    · split at h
      · exact (Option.some.inj h).symm
      · simp at h
  · simp at h

theorem delete_noop (t o : Nat) (s : State) (hr : s.apiReady = true)
    (hp : ∀ r ∈ s.finalizables, r.token ≠ t) :
    realm_delete_finalizable t o s = some s := by
  unfold realm_delete_finalizable Dart_DeleteFinalizableHandle_DL
  rw [if_pos hr, find_none_of_no_key Finalizable.token s.finalizables t hp]

theorem delete_ok (s : State) (r : Finalizable) (hr : s.apiReady = true)
    (hnd : (s.finalizables.map Finalizable.token).Nodup) (hm : r ∈ s.finalizables) :
    realm_delete_finalizable r.token r.object s =
      some { s with finalizables := s.finalizables.filter (fun x => x.token != r.token) } := by
  unfold realm_delete_finalizable Dart_DeleteFinalizableHandle_DL
  rw [if_pos hr, find_of_nodup_key Finalizable.token s.finalizables r hnd hm]
  simp

theorem resolve_some (a : Nat) (s s1 : State) (o : Nat)
    (h : gc_handle_to_object a s = some (o, s1)) : s1 = s := by
  unfold gc_handle_to_object GCHandle.value at h
  split at h
  · simp at h
  · split at h
    · simp at h
    · simp only [Option.some.injEq, Prod.mk.injEq] at h
      exact h.2.symm

theorem resolve_ok (s : State) (a : Nat) (g : GCHandle) (r : Finalizable)
    (hr : s.apiReady = true)
    (hh : (s.heap.map Prod.fst).Nodup) (hp : (a, g) ∈ s.heap)
    (hn : (s.finalizables.map Finalizable.token).Nodup) (hm : r ∈ s.finalizables)
    (ht : r.token = g.m_weakHandle) :
    gc_handle_to_object a s = some (r.object, s) := by
  unfold gc_handle_to_object GCHandle.value Dart_HandleFromWeakPersistent_DL
  have h1 := find_of_nodup_key Prod.fst s.heap (a, g) hh hp
  simp only at h1
  rw [h1]
  simp only [if_pos hr]
  rw [← ht, find_of_nodup_key Finalizable.token s.finalizables r hn hm]
  rfl

theorem resolve_dangling (s : State) (a : Nat) (h : ∀ p ∈ s.heap, p.1 ≠ a) :
    gc_handle_to_object a s = none := by
  unfold gc_handle_to_object GCHandle.value
  rw [find_none_of_no_key Prod.fst s.heap a h]

/-! ## The collector in closed form -/

theorem frees_cons_release (r : Finalizable) (rs : List Finalizable) (a : Nat)
    (hcb : r.callback = Callback.handle_finalizer) : frees (r :: rs) a = frees rs a := by
  simp [frees, hcb]

theorem frees_cons_destroy (r : Finalizable) (rs : List Finalizable) (a : Nat)
    (hcb : r.callback = Callback.finalize_handle) :
    frees (r :: rs) a = (r.peer == a || frees rs a) := by
  simp [frees, hcb]

theorem runFinalizers_some : ∀ (rs : List Finalizable) (s s1 : State),
    runFinalizers rs s = some s1 →
      s1 = { s with
        heap := s.heap.filter (fun p => !frees rs p.1),
        trace := s.trace ++ rs.flatMap Finalizable.events } := by
  intro rs
  induction rs with
  | nil =>
    intro s s1 h
    simp only [runFinalizers, Option.some.injEq] at h
    subst h
    simp [frees]
  | cons r rs ih =>
    intro s s1 h
    unfold runFinalizers at h
    split at h
    · simp at h
    · rename_i s2 hinv
      have h2 := ih s2 s1 h
      rw [h2]
      cases hcb : r.callback with
      | handle_finalizer =>
        rw [hcb] at hinv
        simp only [invokeCallback, handle_finalizer, realm_release, Option.some.injEq] at hinv
        subst hinv
        simp only [State.mk.injEq, true_and]
        refine ⟨?_, ?_⟩
        · apply List.filter_congr
          intro p _
          rw [frees_cons_release r rs p.1 hcb]
        · simp [Finalizable.events, Finalizable.effect, hcb]
      | finalize_handle =>
        rw [hcb] at hinv
        simp only [invokeCallback, GCHandle.finalize_handle] at hinv
        split at hinv
        · simp at hinv
        · simp only [Option.some.injEq] at hinv
          subst hinv
          simp only [State.mk.injEq, true_and]
          refine ⟨?_, ?_⟩
          · rw [List.filter_filter]
            apply List.filter_congr
            intro p _
            rw [frees_cons_destroy r rs p.1 hcb]
            by_cases hp : p.1 = r.peer
            · simp [hp]
            · have e1 : (p.1 != r.peer) = true := by simpa using hp
              have e2 : (r.peer == p.1) = false := by simpa using fun h : r.peer = p.1 => hp h.symm
              rw [e1, e2]
              simp
          · simp [Finalizable.events, Finalizable.effect, hcb]

theorem runFinalizers_ok : ∀ (rs : List Finalizable) (s : State),
    (∀ r ∈ rs, r.callback = Callback.finalize_handle → ∃ p ∈ s.heap, p.1 = r.peer) →
    rs.Pairwise (fun a b => a.callback = Callback.finalize_handle →
      b.callback = Callback.finalize_handle → a.peer ≠ b.peer) →
    ∃ s1, runFinalizers rs s = some s1 := by
  intro rs
  induction rs with
  | nil => intro s _ _; exact ⟨s, rfl⟩
  | cons r rs ih =>
    intro s hrec hpw
    rw [List.pairwise_cons] at hpw
    unfold runFinalizers
    cases hcb : r.callback with
    | handle_finalizer =>
      simp only [invokeCallback, handle_finalizer, realm_release]
      apply ih
      · intro x hx hfx
        exact hrec x (List.mem_cons_of_mem _ hx) hfx
      · exact hpw.2
    | finalize_handle =>
      obtain ⟨p, hp, hpa⟩ := hrec r (List.mem_cons_self _ _) hcb
      simp only [invokeCallback, GCHandle.finalize_handle]
      cases hf : s.heap.find? (fun q => q.1 == r.peer) with
      | none =>
        rw [List.find?_eq_none] at hf
        have := hf p hp
        simp [hpa] at this
      | some q =>
        simp only
        apply ih
        · intro x hx hfx
          obtain ⟨q2, hq2, hq2a⟩ := hrec x (List.mem_cons_of_mem _ hx) hfx
          refine ⟨q2, ?_, hq2a⟩
          simp only [List.mem_filter]
          refine ⟨hq2, ?_⟩
          have hne := hpw.1 x hx hcb hfx
          rw [hq2a]
          simpa using fun h => hne h.symm
        · exact hpw.2

theorem collect_some (o : Nat) (s s1 : State) (h : collect o s = some s1) :
    o ∉ s.dead ∧
      s1 = { s with
        dead := o :: s.dead,
        finalizables := s.finalizables.filter (fun r => r.object != o),
        heap := s.heap.filter
          (fun p => !frees (s.finalizables.filter (fun r => r.object == o)) p.1),
        trace := s.trace ++
          (s.finalizables.filter (fun r => r.object == o)).flatMap Finalizable.events } := by
  unfold collect at h
  split at h
  · simp at h
  · rename_i hd
    refine ⟨hd, ?_⟩
    rw [runFinalizers_some _ _ _ h]

theorem frees_iff (rs : List Finalizable) (a : Nat) :
    frees rs a = true ↔
      ∃ r ∈ rs, r.callback = Callback.finalize_handle ∧ r.peer = a := by
  simp [frees]

theorem fire_mem_events (rs : List Finalizable) (t : Nat) :
    Event.fire t ∈ rs.flatMap Finalizable.events ↔ ∃ r ∈ rs, r.token = t := by
  simp only [List.mem_flatMap, Finalizable.events, Finalizable.effect]
  constructor
  · rintro ⟨r, hr, hm⟩
    refine ⟨r, hr, ?_⟩
    cases hcb : r.callback <;> simp [hcb] at hm <;> exact hm.symm
  · rintro ⟨r, hr, rfl⟩
    exact ⟨r, hr, by simp⟩

theorem destroy_mem_events (rs : List Finalizable) (a : Nat) :
    Event.destroy a ∈ rs.flatMap Finalizable.events ↔
      ∃ r ∈ rs, r.callback = Callback.finalize_handle ∧ r.peer = a := by
  simp only [List.mem_flatMap, Finalizable.events, Finalizable.effect]
  constructor
  · rintro ⟨r, hr, hm⟩
    refine ⟨r, hr, ?_⟩
    cases hcb : r.callback <;> simp [hcb] at hm
    exact ⟨rfl, hm.symm⟩
  · rintro ⟨r, hr, hcb, rfl⟩
    exact ⟨r, hr, by simp [hcb]⟩

/-! ## The invariant holds in every reachable state -/

theorem inv_initial : Inv State.initial := by
  constructor <;> simp [State.initial]

theorem inv_initialize (d : Nat) (s : State) (h : Inv s) :
    Inv (realm_initializeDartApiDL d s) := by
  unfold realm_initializeDartApiDL Dart_InitializeApiDL
  exact
    { tok_lt := h.tok_lt, tok_nodup := h.tok_nodup, obj_live := h.obj_live,
      ready := fun _ _ => rfl, heap_nodup := h.heap_nodup, link_lt := h.link_lt,
      link_nodup := h.link_nodup, rec_of_reg := h.rec_of_reg, fire_lt := h.fire_lt,
      fire_pending := h.fire_pending }

theorem inv_attach (o p : Nat) (z : Int) (s s1 : State) (t : Nat)
    (ha : realm_attach_finalizer o p z s = some (t, s1)) (h : Inv s) : Inv s1 := by
  obtain ⟨hr, ho, _, rfl⟩ := attach_some o p z s s1 t ha
  constructor
  · intro r hm
    rcases List.mem_cons.1 hm with rfl | hm
    · exact Nat.lt_succ_self _
    · exact Nat.lt_succ_of_lt (h.tok_lt r hm)
  · simp only [List.map_cons, List.nodup_cons]
    refine ⟨?_, h.tok_nodup⟩
    intro hm
    obtain ⟨r, hr1, hr2⟩ := List.mem_map.1 hm
    exact absurd (h.tok_lt r hr1) (by rw [hr2]; exact Nat.lt_irrefl _)
  · intro r hm
    rcases List.mem_cons.1 hm with rfl | hm
    · exact ho
    · exact h.obj_live r hm
  · intro _ _
    exact hr
  · exact h.heap_nodup
  · intro q hm
    exact Nat.lt_succ_of_lt (h.link_lt q hm)
  · exact h.link_nodup
  · intro r hm hcb
    rcases List.mem_cons.1 hm with rfl | hm
    · simp at hcb
    · exact h.rec_of_reg r hm hcb
  · intro t ht
    exact Nat.lt_succ_of_lt (h.fire_lt t ht)
  · intro r hm hf
    rcases List.mem_cons.1 hm with rfl | hm
    · exact Nat.lt_irrefl _ (h.fire_lt _ hf)
    · exact h.fire_pending r hm hf

theorem inv_wrap (o a0 : Nat) (s s1 : State) (a : Nat)
    (hw : object_to_gc_handle o a0 s = some (a, s1)) (h : Inv s) : Inv s1 := by
  obtain ⟨hr, ho, _, hfree, rfl⟩ := wrap_some o a0 s s1 a hw
  constructor
  · intro r hm
    rcases List.mem_cons.1 hm with rfl | hm
    · exact Nat.lt_succ_self _
    · exact Nat.lt_succ_of_lt (h.tok_lt r hm)
  · simp only [List.map_cons, List.nodup_cons]
    refine ⟨?_, h.tok_nodup⟩
    intro hm
    obtain ⟨r, hr1, hr2⟩ := List.mem_map.1 hm
    exact absurd (h.tok_lt r hr1) (by rw [hr2]; exact Nat.lt_irrefl _)
  · intro r hm
    rcases List.mem_cons.1 hm with rfl | hm
    · exact ho
    · exact h.obj_live r hm
  · intro _ _
    exact hr
  · simp only [List.map_cons, List.nodup_cons]
    refine ⟨?_, h.heap_nodup⟩
    intro hm
    obtain ⟨q, hq1, hq2⟩ := List.mem_map.1 hm
    exact hfree q hq1 hq2
  · intro q hm
    rcases List.mem_cons.1 hm with rfl | hm
    · exact Nat.lt_succ_self _
    · exact Nat.lt_succ_of_lt (h.link_lt q hm)
  · simp only [List.map_cons, List.nodup_cons]
    refine ⟨?_, h.link_nodup⟩
    intro hm
    obtain ⟨q, hq1, hq2⟩ := List.mem_map.1 hm
    exact absurd (h.link_lt q hq1) (by rw [hq2]; exact Nat.lt_irrefl _)
  · intro r hm hcb
    rcases List.mem_cons.1 hm with rfl | hm
    · exact List.mem_cons_self _ _
    · exact List.mem_cons_of_mem _ (h.rec_of_reg r hm hcb)
  · intro t ht
    exact Nat.lt_succ_of_lt (h.fire_lt t ht)
  · intro r hm hf
    rcases List.mem_cons.1 hm with rfl | hm
    · exact Nat.lt_irrefl _ (h.fire_lt _ hf)
    · exact h.fire_pending r hm hf

theorem inv_delete (t o : Nat) (s s1 : State)
    (hd : realm_delete_finalizable t o s = some s1) (h : Inv s) : Inv s1 := by
  obtain ⟨hr, rfl⟩ := delete_some t o s s1 hd
  constructor
  · intro r hm
    exact h.tok_lt r (List.mem_filter.1 hm).1
  · exact h.tok_nodup.sublist ((List.filter_sublist _).map _)
  · intro r hm
    exact h.obj_live r (List.mem_filter.1 hm).1
  · intro _ _
    exact hr
  · exact h.heap_nodup
  · exact h.link_lt
  · exact h.link_nodup
  · intro r hm hcb
    exact h.rec_of_reg r (List.mem_filter.1 hm).1 hcb
  · exact h.fire_lt
  · intro r hm
    exact h.fire_pending r (List.mem_filter.1 hm).1

theorem peer_unique (s : State) (h : Inv s) (a b : Finalizable)
    (ha : a ∈ s.finalizables) (hb : b ∈ s.finalizables)
    (hca : a.callback = Callback.finalize_handle) (hcb : b.callback = Callback.finalize_handle)
    (hp : a.peer = b.peer) : a = b := by
  have h1 := h.rec_of_reg a ha hca
  have h2 := h.rec_of_reg b hb hcb
  rw [hp] at h1
  have h3 := pair_of_nodup_fst s.heap b.peer _ _ h.heap_nodup h1 h2
  have h4 : a.token = b.token := by
    have := congrArg GCHandle.m_weakHandle h3
    simpa using this
  exact eq_of_nodup_key Finalizable.token s.finalizables a b h.tok_nodup ha hb h4

theorem collect_ok (o : Nat) (s : State) (h : Inv s) (ho : o ∉ s.dead) :
    ∃ s1, collect o s = some s1 := by
  unfold collect
  rw [if_neg ho]
  apply runFinalizers_ok
  · intro r hm hcb
    exact ⟨_, h.rec_of_reg r (List.mem_filter.1 hm).1 hcb, rfl⟩
  · have hpw : s.finalizables.Pairwise (fun a b => a ≠ b) := by
      have := h.tok_nodup
      rw [List.Nodup, List.pairwise_map] at this
      exact this.imp (fun hne heq => hne (congrArg Finalizable.token heq))
    have hpw2 : s.finalizables.Pairwise (fun a b => a.callback = Callback.finalize_handle →
        b.callback = Callback.finalize_handle → a.peer ≠ b.peer) := by
      refine hpw.imp_of_mem ?_
      intro a b ha hb hne hca hcb hp
      exact hne (peer_unique s h a b ha hb hca hcb hp)
    exact hpw2.sublist (List.filter_sublist _)

theorem inv_collect (o : Nat) (s s1 : State) (hc : collect o s = some s1) (h : Inv s) :
    Inv s1 := by
  obtain ⟨ho, rfl⟩ := collect_some o s s1 hc
  constructor
  · intro r hm
    exact h.tok_lt r (List.mem_filter.1 hm).1
  · exact h.tok_nodup.sublist ((List.filter_sublist _).map _)
  · intro r hm
    obtain ⟨hm1, hm2⟩ := List.mem_filter.1 hm
    have hne : r.object ≠ o := by simpa using hm2
    intro hd
    rcases List.mem_cons.1 hd with hd | hd
    · exact hne hd
    · exact h.obj_live r hm1 hd
  · intro r hm
    exact h.ready r (List.mem_filter.1 hm).1
  · exact h.heap_nodup.sublist ((List.filter_sublist _).map _)
  · intro q hm
    exact h.link_lt q (List.mem_filter.1 hm).1
  · exact h.link_nodup.sublist ((List.filter_sublist _).map _)
  · intro r hm hcb
    obtain ⟨hm1, hm2⟩ := List.mem_filter.1 hm
    have hne : r.object ≠ o := by simpa using hm2
    refine List.mem_filter.2 ⟨h.rec_of_reg r hm1 hcb, ?_⟩
    cases hf : frees (s.finalizables.filter (fun r => r.object == o)) r.peer with
    | false => rfl
    | true =>
      obtain ⟨x, hx, hxc, hxp⟩ := (frees_iff _ _).1 hf
      obtain ⟨hx1, hx2⟩ := List.mem_filter.1 hx
      have hxo : x.object = o := by simpa using hx2
      have := peer_unique s h x r hx1 hm1 hxc hcb hxp
      exact absurd (this ▸ hxo) hne
  · intro t ht
    rcases List.mem_append.1 ht with ht | ht
    · exact h.fire_lt t ht
    · obtain ⟨x, hx, rfl⟩ := (fire_mem_events _ _).1 ht
      exact h.tok_lt x (List.mem_filter.1 hx).1
  · intro r hm ht
    obtain ⟨hm1, hm2⟩ := List.mem_filter.1 hm
    have hne : r.object ≠ o := by simpa using hm2
    rcases List.mem_append.1 ht with ht | ht
    · exact h.fire_pending r hm1 ht
    · obtain ⟨x, hx, hxt⟩ := (fire_mem_events _ _).1 ht
      obtain ⟨hx1, hx2⟩ := List.mem_filter.1 hx
      have hxo : x.object = o := by simpa using hx2
      have := eq_of_nodup_key Finalizable.token s.finalizables x r h.tok_nodup hx1 hm1 hxt
      exact hne (this ▸ hxo)

theorem map_snd_some {α β : Type} (x : Option (α × β)) (b : β)
    (h : x.map Prod.snd = some b) : ∃ a, x = some (a, b) := by
  cases x with
  | none => simp at h
  | some v =>
    obtain ⟨a, c⟩ := v
    simp only [Option.map_some', Option.some.injEq] at h
    exact ⟨a, by rw [h]⟩

theorem inv_step (s s1 : State) (op : Op) (hs : step s op = some s1) (h : Inv s) : Inv s1 := by
  cases op with
  | realm_initializeDartApiDL d =>
    simp only [step, Option.some.injEq] at hs
    subst hs
    exact inv_initialize d s h
  | realm_attach_finalizer o p z =>
    obtain ⟨t, ha⟩ := map_snd_some _ _ hs
    exact inv_attach o p z s s1 t ha h
  | realm_delete_finalizable t o => exact inv_delete t o s s1 hs h
  | object_to_gc_handle o a0 =>
    obtain ⟨a, hw⟩ := map_snd_some _ _ hs
    exact inv_wrap o a0 s s1 a hw h
  | gc_handle_to_object a =>
    obtain ⟨o, hv⟩ := map_snd_some _ _ hs
    rw [resolve_some a s s1 o hv]
    exact h
  | collect o => exact inv_collect o s s1 hs h

theorem run_cons (s s2 : State) (op : Op) (ops : List Op) (h : run s (op :: ops) = some s2) :
    ∃ s1, step s op = some s1 ∧ run s1 ops = some s2 := by
  unfold run at h
  split at h
  · simp at h
  · rename_i s1 hs
    exact ⟨s1, hs, h⟩

theorem inv_run (ops : List Op) : ∀ (s s1 : State), run s ops = some s1 → Inv s → Inv s1 := by
  induction ops with
  | nil =>
    intro s s1 hr h
    simp only [run, Option.some.injEq] at hr
    exact hr ▸ h
  | cons op ops ih =>
    intro s s2 hr h
    obtain ⟨s1, hs, hr1⟩ := run_cons s s2 op ops hr
    exact ih s1 s2 hr1 (inv_step s s1 op hs h)

theorem inv_reachable (s : State) (h : Reachable s) : Inv s := by
  obtain ⟨ops, hr⟩ := h
  exact inv_run ops State.initial s hr inv_initial

/-! ## What one step can and cannot change -/

theorem effect_not_fire (r : Finalizable) : r.effect.isFire = false := by
  cases hcb : r.callback <;> simp [Finalizable.effect, hcb, Event.isFire]

theorem effect_ne_fire (r : Finalizable) (t : Nat) : r.effect ≠ Event.fire t := by
  cases hcb : r.callback <;> simp [Finalizable.effect, hcb]

theorem takeWhile_events (rs : List Finalizable) :
    (rs.flatMap Finalizable.events).takeWhile (fun x => !x.isFire) = [] := by
  cases rs with
  | nil => rfl
  | cons x xs => simp [Finalizable.events, Event.isFire]

theorem step_frame (s s1 : State) (op : Op) (h : step s op = some s1) :
    s.nextToken ≤ s1.nextToken ∧
    (s.apiReady = true → s1.apiReady = true) ∧
    (∀ o ∈ s.dead, o ∈ s1.dead) ∧
    (∀ r ∈ s1.finalizables, r ∈ s.finalizables ∨ r.token = s.nextToken) ∧
    (∀ p ∈ s1.heap, p ∈ s.heap ∨ p.2.m_weakHandle = s.nextToken) ∧
    (∃ d, s1.trace = s.trace ++ d ∧ d.takeWhile (fun x => !x.isFire) = [] ∧
      ∀ e ∈ d, ∃ r ∈ s.finalizables, e ∈ r.events ∧ op = Op.collect r.object) := by
  cases op with
  | realm_initializeDartApiDL d =>
    simp only [step, Option.some.injEq] at h
    subst h
    unfold realm_initializeDartApiDL Dart_InitializeApiDL
    exact ⟨le_refl _, fun _ => rfl, fun _ ho => ho, fun _ hr => Or.inl hr,
      fun _ hp => Or.inl hp, [], by simp, rfl, by simp⟩
  | realm_attach_finalizer o p z =>
    obtain ⟨t, ha⟩ := map_snd_some _ _ h
    obtain ⟨_, _, _, rfl⟩ := attach_some o p z s s1 t ha
    refine ⟨Nat.le_succ _, fun hr => hr, fun _ ho => ho, ?_,
      fun _ hp => Or.inl hp, [], by simp, rfl, by simp⟩
    intro r hm
    rcases List.mem_cons.1 hm with rfl | hm
    · exact Or.inr rfl
    · exact Or.inl hm
  | realm_delete_finalizable t o =>
    obtain ⟨_, rfl⟩ := delete_some t o s s1 h
    exact ⟨le_refl _, fun hr => hr, fun _ ho => ho,
      fun r hm => Or.inl (List.mem_filter.1 hm).1, fun _ hp => Or.inl hp, [], by simp, rfl,
      by simp⟩
  | object_to_gc_handle o a0 =>
    obtain ⟨a, hw⟩ := map_snd_some _ _ h
    obtain ⟨_, _, _, _, rfl⟩ := wrap_some o a0 s s1 a hw
    refine ⟨Nat.le_succ _, fun hr => hr, fun _ ho => ho, ?_, ?_,
      [], by simp, rfl, by simp⟩
    · intro r hm
      rcases List.mem_cons.1 hm with rfl | hm
      · exact Or.inr rfl
      · exact Or.inl hm
    · intro q hm
      rcases List.mem_cons.1 hm with rfl | hm
      · exact Or.inr rfl
      · exact Or.inl hm
  | gc_handle_to_object a =>
    obtain ⟨o, hv⟩ := map_snd_some _ _ h
    rw [resolve_some a s s1 o hv]
    exact ⟨le_refl _, fun hr => hr, fun _ ho => ho, fun _ hr => Or.inl hr,
      fun _ hp => Or.inl hp, [], by simp, rfl, by simp⟩
  | collect o =>
    obtain ⟨_, rfl⟩ := collect_some o s s1 h
    refine ⟨le_refl _, fun hr => hr, fun _ ho => List.mem_cons_of_mem _ ho,
      fun r hm => Or.inl (List.mem_filter.1 hm).1,
      fun q hm => Or.inl (List.mem_filter.1 hm).1, _, rfl, takeWhile_events _, ?_⟩
    intro e he
    obtain ⟨r, hr, hre⟩ := List.mem_flatMap.1 he
    obtain ⟨hr1, hr2⟩ := List.mem_filter.1 hr
    have hro : r.object = o := by simpa using hr2
    exact ⟨r, hr1, hre, by rw [hro]⟩

theorem step_keep_reg (s s1 : State) (op : Op) (r : Finalizable) (h : step s op = some s1)
    (hm : r ∈ s.finalizables) (hnd : ∀ o, op ≠ Op.realm_delete_finalizable r.token o)
    (hnc : op ≠ Op.collect r.object) : r ∈ s1.finalizables := by
  cases op with
  | realm_initializeDartApiDL d =>
    simp only [step, Option.some.injEq] at h
    subst h
    exact hm
  | realm_attach_finalizer o p z =>
    obtain ⟨t, ha⟩ := map_snd_some _ _ h
    obtain ⟨_, _, _, rfl⟩ := attach_some o p z s s1 t ha
    exact List.mem_cons_of_mem _ hm
  | realm_delete_finalizable t o =>
    obtain ⟨_, rfl⟩ := delete_some t o s s1 h
    refine List.mem_filter.2 ⟨hm, ?_⟩
    have : r.token ≠ t := fun e => hnd o (by rw [e])
    simpa using this
  | object_to_gc_handle o a0 =>
    obtain ⟨a, hw⟩ := map_snd_some _ _ h
    obtain ⟨_, _, _, _, rfl⟩ := wrap_some o a0 s s1 a hw
    exact List.mem_cons_of_mem _ hm
  | gc_handle_to_object a =>
    obtain ⟨o, hv⟩ := map_snd_some _ _ h
    rw [resolve_some a s s1 o hv]
    exact hm
  | collect o =>
    obtain ⟨_, rfl⟩ := collect_some o s s1 h
    refine List.mem_filter.2 ⟨hm, ?_⟩
    have : r.object ≠ o := fun e => hnc (by rw [e])
    simpa using this

theorem step_keep_rec (s s1 : State) (op : Op) (p : Nat × GCHandle) (h : step s op = some s1)
    (hp : p ∈ s.heap) :
    p ∈ s1.heap ∨ ∃ r ∈ s.finalizables, op = Op.collect r.object ∧
      r.callback = Callback.finalize_handle ∧ r.peer = p.1 := by
  cases op with
  | realm_initializeDartApiDL d =>
    simp only [step, Option.some.injEq] at h
    subst h
    exact Or.inl hp
  | realm_attach_finalizer o q z =>
    obtain ⟨t, ha⟩ := map_snd_some _ _ h
    obtain ⟨_, _, _, rfl⟩ := attach_some o q z s s1 t ha
    exact Or.inl hp
  | realm_delete_finalizable t o =>
    obtain ⟨_, rfl⟩ := delete_some t o s s1 h
    exact Or.inl hp
  | object_to_gc_handle o a0 =>
    obtain ⟨a, hw⟩ := map_snd_some _ _ h
    obtain ⟨_, _, _, _, rfl⟩ := wrap_some o a0 s s1 a hw
    exact Or.inl (List.mem_cons_of_mem _ hp)
  | gc_handle_to_object a =>
    obtain ⟨o, hv⟩ := map_snd_some _ _ h
    rw [resolve_some a s s1 o hv]
    exact Or.inl hp
  | collect o =>
    obtain ⟨_, rfl⟩ := collect_some o s s1 h
    cases hf : frees (s.finalizables.filter (fun r => r.object == o)) p.1 with
    | false =>
      exact Or.inl (List.mem_filter.2 ⟨hp, by simp [hf]⟩)
    | true =>
      obtain ⟨x, hx, hxc, hxp⟩ := (frees_iff _ _).1 hf
      obtain ⟨hx1, hx2⟩ := List.mem_filter.1 hx
      have hxo : x.object = o := by simpa using hx2
      exact Or.inr ⟨x, hx1, by rw [hxo], hxc, hxp⟩

theorem fire_mem_own (r : Finalizable) (t : Nat) (h : Event.fire t ∈ r.events) :
    r.token = t := by
  cases hcb : r.callback <;> simp [Finalizable.events, Finalizable.effect, hcb] at h <;> exact h.symm

theorem destroy_mem_own (r : Finalizable) (a : Nat) (h : Event.destroy a ∈ r.events) :
    r.callback = Callback.finalize_handle ∧ r.peer = a := by
  cases hcb : r.callback <;> simp [Finalizable.events, Finalizable.effect, hcb] at h
  exact ⟨rfl, h.symm⟩

theorem release_mem_own (r : Finalizable) (a : Nat) (h : Event.release a ∈ r.events) :
    r.callback = Callback.handle_finalizer ∧ r.peer = a := by
  cases hcb : r.callback <;> simp [Finalizable.events, Finalizable.effect, hcb] at h
  exact ⟨rfl, h.symm⟩

theorem step_fire_count (s s1 : State) (op : Op) (t : Nat) (h : step s op = some s1)
    (hp : ∀ r ∈ s.finalizables, r.token ≠ t) :
    List.count (Event.fire t) s1.trace = List.count (Event.fire t) s.trace := by
  obtain ⟨_, _, _, _, _, d, hd, _, hde⟩ := step_frame s s1 op h
  have hz : List.count (Event.fire t) d = 0 := by
    apply List.count_eq_zero.2
    intro hm
    obtain ⟨r, hr, hre, _⟩ := hde _ hm
    exact hp r hr (fire_mem_own r t hre)
  rw [hd, List.count_append, hz, Nat.add_zero]

theorem step_release_count (s s1 : State) (op : Op) (a : Nat) (h : step s op = some s1)
    (hp : ∀ r ∈ s.finalizables, r.callback = Callback.handle_finalizer → r.peer ≠ a) :
    List.count (Event.release a) s1.trace = List.count (Event.release a) s.trace := by
  obtain ⟨_, _, _, _, _, d, hd, _, hde⟩ := step_frame s s1 op h
  have hz : List.count (Event.release a) d = 0 := by
    apply List.count_eq_zero.2
    intro hm
    obtain ⟨r, hr, hre, _⟩ := hde _ hm
    obtain ⟨h1, h2⟩ := release_mem_own r a hre
    exact hp r hr h1 h2
  rw [hd, List.count_append, hz, Nat.add_zero]

/-! ## What a run can and cannot change -/

theorem run_frame (ops : List Op) : ∀ (s s1 : State), run s ops = some s1 →
    s.nextToken ≤ s1.nextToken ∧
    (s.apiReady = true → s1.apiReady = true) ∧ (∀ o ∈ s.dead, o ∈ s1.dead) := by
  induction ops with
  | nil =>
    intro s s1 hr
    simp only [run, Option.some.injEq] at hr
    subst hr
    exact ⟨le_refl _, fun h => h, fun _ h => h⟩
  | cons op ops ih =>
    intro s s2 hr
    obtain ⟨s1, hs, hr1⟩ := run_cons s s2 op ops hr
    obtain ⟨a1, a3, a4, _⟩ := step_frame s s1 op hs
    obtain ⟨b1, b3, b4⟩ := ih s1 s2 hr1
    exact ⟨le_trans a1 b1, fun h => b3 (a3 h), fun o h => b4 o (a4 o h)⟩

theorem run_old_token (ops : List Op) : ∀ (s s1 : State), run s ops = some s1 →
    ∀ r ∈ s1.finalizables, r.token < s.nextToken → r ∈ s.finalizables := by
  induction ops with
  | nil =>
    intro s s1 hr
    simp only [run, Option.some.injEq] at hr
    subst hr
    exact fun _ h _ => h
  | cons op ops ih =>
    intro s s2 hr r hm hlt
    obtain ⟨s1, hs, hr1⟩ := run_cons s s2 op ops hr
    obtain ⟨a1, _, _, a5, _⟩ := step_frame s s1 op hs
    have h1 := ih s1 s2 hr1 r hm (lt_of_lt_of_le hlt a1)
    rcases a5 r h1 with h2 | h2
    · exact h2
    · exact absurd hlt (by rw [h2]; exact Nat.lt_irrefl _)

theorem run_collect_dead (ops : List Op) (o : Nat) : ∀ (s s1 : State), run s ops = some s1 →
    Op.collect o ∈ ops → o ∈ s1.dead := by
  induction ops with
  | nil => intro s s1 _ hm; simp at hm
  | cons op ops ih =>
    intro s s2 hr hm
    obtain ⟨s1, hs, hr1⟩ := run_cons s s2 op ops hr
    rcases List.mem_cons.1 hm with rfl | hm
    · obtain ⟨_, rfl⟩ := collect_some o s s1 hs
      exact (run_frame ops _ s2 hr1).2.2 o (List.mem_cons_self _ _)
    · exact ih s1 s2 hr1 hm

theorem run_keep_reg (ops : List Op) (r : Finalizable) : ∀ (s s1 : State),
    run s ops = some s1 → r ∈ s.finalizables →
    (∀ o, Op.realm_delete_finalizable r.token o ∉ ops) → Op.collect r.object ∉ ops →
    r ∈ s1.finalizables := by
  induction ops with
  | nil =>
    intro s s1 hr hm _ _
    simp only [run, Option.some.injEq] at hr
    exact hr ▸ hm
  | cons op ops ih =>
    intro s s2 hr hm hnd hnc
    obtain ⟨s1, hs, hr1⟩ := run_cons s s2 op ops hr
    have h1 : r ∈ s1.finalizables := by
      apply step_keep_reg s s1 op r hs hm
      · intro o e
        exact hnd o (e ▸ List.mem_cons_self _ _)
      · intro e
        exact hnc (e ▸ List.mem_cons_self _ _)
    exact ih s1 s2 hr1 h1 (fun o hmem => hnd o (List.mem_cons_of_mem _ hmem))
      (fun hmem => hnc (List.mem_cons_of_mem _ hmem))

theorem run_keep_rec (ops : List Op) (r : Finalizable) (a : Nat) (g : GCHandle)
    (hrg : r.token = g.m_weakHandle) : ∀ (s s1 : State),
    run s ops = some s1 → Inv s → (a, g) ∈ s.heap → r ∈ s.finalizables →
    (∀ o, Op.realm_delete_finalizable r.token o ∉ ops) → Op.collect r.object ∉ ops →
    (a, g) ∈ s1.heap := by
  induction ops with
  | nil =>
    intro s s1 hr _ hp _ _ _
    simp only [run, Option.some.injEq] at hr
    exact hr ▸ hp
  | cons op ops ih =>
    intro s s2 hr hinv hp hm hnd hnc
    obtain ⟨s1, hs, hr1⟩ := run_cons s s2 op ops hr
    have hnd1 : ∀ o, op ≠ Op.realm_delete_finalizable r.token o :=
      fun o e => hnd o (e ▸ List.mem_cons_self _ _)
    have hnc1 : op ≠ Op.collect r.object := fun e => hnc (e ▸ List.mem_cons_self _ _)
    have h1 : r ∈ s1.finalizables := step_keep_reg s s1 op r hs hm hnd1 hnc1
    have h2 : (a, g) ∈ s1.heap := by
      rcases step_keep_rec s s1 op (a, g) hs hp with h2 | ⟨x, hx, hop, hxc, hxp⟩
      · exact h2
      · exfalso
        have hx2 := hinv.rec_of_reg x hx hxc
        rw [hxp] at hx2
        have hg := pair_of_nodup_fst s.heap a _ _ hinv.heap_nodup hx2 hp
        have hxt : x.token = r.token := by
          rw [hrg, ← hg]
        have hxr := eq_of_nodup_key Finalizable.token s.finalizables x r hinv.tok_nodup hx hm hxt
        exact hnc1 (hxr ▸ hop)
    exact ih s1 s2 hr1 (inv_step s s1 op hs hinv) h2 h1
      (fun o hmem => hnd o (List.mem_cons_of_mem _ hmem))
      (fun hmem => hnc (List.mem_cons_of_mem _ hmem))

theorem run_spent_token (ops : List Op) (t : Nat) : ∀ (s s1 : State), run s ops = some s1 →
    t < s.nextToken → (∀ r ∈ s.finalizables, r.token ≠ t) →
    (∀ r ∈ s1.finalizables, r.token ≠ t) ∧
      List.count (Event.fire t) s1.trace = List.count (Event.fire t) s.trace := by
  induction ops with
  | nil =>
    intro s s1 hr _ hp
    simp only [run, Option.some.injEq] at hr
    subst hr
    exact ⟨hp, rfl⟩
  | cons op ops ih =>
    intro s s2 hr hlt hp
    obtain ⟨s1, hs, hr1⟩ := run_cons s s2 op ops hr
    obtain ⟨a1, _, _, a5, _⟩ := step_frame s s1 op hs
    have hp1 : ∀ r ∈ s1.finalizables, r.token ≠ t := by
      intro r hm
      rcases a5 r hm with h2 | h2
      · exact hp r h2
      · rw [h2]
        exact fun e => Nat.lt_irrefl _ (e ▸ hlt)
    obtain ⟨b1, b2⟩ := ih s1 s2 hr1 (lt_of_lt_of_le hlt a1) hp1
    exact ⟨b1, by rw [b2, step_fire_count s s1 op t hs hp]⟩

theorem run_spent_link (ops : List Op) (t : Nat) : ∀ (s s1 : State), run s ops = some s1 →
    t < s.nextToken → (∀ p ∈ s.heap, p.2.m_weakHandle ≠ t) →
    ∀ p ∈ s1.heap, p.2.m_weakHandle ≠ t := by
  induction ops with
  | nil =>
    intro s s1 hr _ hp
    simp only [run, Option.some.injEq] at hr
    subst hr
    exact hp
  | cons op ops ih =>
    intro s s2 hr hlt hp
    obtain ⟨s1, hs, hr1⟩ := run_cons s s2 op ops hr
    obtain ⟨a1, _, _, _, a6, _⟩ := step_frame s s1 op hs
    have hp1 : ∀ p ∈ s1.heap, p.2.m_weakHandle ≠ t := by
      intro p hm
      rcases a6 p hm with h2 | h2
      · exact hp p h2
      · rw [h2]
        exact fun e => Nat.lt_irrefl _ (e ▸ hlt)
    exact ih s1 s2 hr1 (lt_of_lt_of_le hlt a1) hp1

theorem takeWhile_append_stop {α : Type} (q : α → Bool) (l2 : List α)
    (h : l2.takeWhile q = []) : ∀ (l1 : List α), (l1 ++ l2).takeWhile q = l1.takeWhile q := by
  intro l1
  induction l1 with
  | nil => simpa using h
  | cons a l ih =>
    simp only [List.cons_append, List.takeWhile_cons, ih]

theorem effectsOf_append_right (t : Nat) (l2 : List Event)
    (h : l2.takeWhile (fun x => !x.isFire) = []) : ∀ (l1 : List Event),
    Event.fire t ∈ l1 → effectsOf t (l1 ++ l2) = effectsOf t l1 := by
  intro l1
  induction l1 with
  | nil => intro hm; simp at hm
  | cons e es ih =>
    intro hm
    by_cases he : e = Event.fire t
    · simp only [List.cons_append, effectsOf, if_pos he]
      exact takeWhile_append_stop _ l2 h es
    · simp only [List.cons_append, effectsOf, if_neg he]
      rcases List.mem_cons.1 hm with h1 | h1
      · exact absurd h1.symm he
      · exact ih h1

theorem run_effects_stable (ops : List Op) (t : Nat) : ∀ (s s1 : State), run s ops = some s1 →
    Event.fire t ∈ s.trace → effectsOf t s1.trace = effectsOf t s.trace := by
  induction ops with
  | nil =>
    intro s s1 hr _
    simp only [run, Option.some.injEq] at hr
    subst hr
    rfl
  | cons op ops ih =>
    intro s s2 hr hm
    obtain ⟨s1, hs, hr1⟩ := run_cons s s2 op ops hr
    obtain ⟨_, _, _, _, _, d, hd, htw, _⟩ := step_frame s s1 op hs
    have hm1 : Event.fire t ∈ s1.trace := by
      rw [hd]
      exact List.mem_append_left _ hm
    rw [ih s1 s2 hr1 hm1, hd]
    exact effectsOf_append_right t d htw s.trace hm

theorem run_fire_dead (ops : List Op) (t o : Nat) : ∀ (s s1 : State), run s ops = some s1 →
    t < s.nextToken → (∀ r ∈ s.finalizables, r.token = t → r.object = o) →
    Event.fire t ∈ s1.trace → Event.fire t ∈ s.trace ∨ o ∈ s1.dead := by
  induction ops with
  | nil =>
    intro s s1 hr _ _ hf
    simp only [run, Option.some.injEq] at hr
    subst hr
    exact Or.inl hf
  | cons op ops ih =>
    intro s s2 hr hlt hid hf
    obtain ⟨s1, hs, hr1⟩ := run_cons s s2 op ops hr
    obtain ⟨a1, _, _, a5, _, d, hd, _, hde⟩ := step_frame s s1 op hs
    have hid1 : ∀ r ∈ s1.finalizables, r.token = t → r.object = o := by
      intro r hm ht
      rcases a5 r hm with h2 | h2
      · exact hid r h2 ht
      · exact absurd hlt (by rw [← ht, h2]; exact Nat.lt_irrefl _)
    rcases ih s1 s2 hr1 (lt_of_lt_of_le hlt a1) hid1 hf with h3 | h3
    · rw [hd] at h3
      rcases List.mem_append.1 h3 with h4 | h4
      · exact Or.inl h4
      · obtain ⟨r, hr2, hre, hop⟩ := hde _ h4
        have hro := hid r hr2 (fire_mem_own r t hre)
        right
        apply run_collect_dead (op :: ops) o s s2 hr
        rw [hop, hro]
        exact List.mem_cons_self _ _
    · exact Or.inr h3

theorem run_deleted (ops : List Op) (t h : Nat) : ∀ (s s1 : State), run s ops = some s1 →
    t < s.nextToken → Op.realm_delete_finalizable t h ∈ ops →
    ∀ r ∈ s1.finalizables, r.token ≠ t := by
  induction ops with
  | nil => intro s s1 _ _ hm; simp at hm
  | cons op ops ih =>
    intro s s2 hr hlt hm
    obtain ⟨s1, hs, hr1⟩ := run_cons s s2 op ops hr
    obtain ⟨a1, _⟩ := step_frame s s1 op hs
    rcases List.mem_cons.1 hm with rfl | hm
    · obtain ⟨_, rfl⟩ := delete_some t h s s1 hs
      refine (run_spent_token ops t _ s2 hr1 hlt ?_).1
      intro r hmem
      have := (List.mem_filter.1 hmem).2
      simpa using this
    · exact ih s1 s2 hr1 (lt_of_lt_of_le hlt a1) hm

/-! ## The trace of one collection -/

theorem effectsOf_append_left (t : Nat) (l2 : List Event) : ∀ (l1 : List Event),
    Event.fire t ∉ l1 → effectsOf t (l1 ++ l2) = effectsOf t l2 := by
  intro l1
  induction l1 with
  | nil => intro _; rfl
  | cons e es ih =>
    intro hn
    have h1 : e ≠ Event.fire t := fun h => hn (h ▸ List.mem_cons_self _ _)
    have h2 : Event.fire t ∉ es := fun h => hn (List.mem_cons_of_mem _ h)
    simp only [List.cons_append, effectsOf, if_neg h1]
    exact ih h2

theorem effectsOf_events : ∀ (rs : List Finalizable) (r : Finalizable),
    (rs.map Finalizable.token).Nodup → r ∈ rs →
    effectsOf r.token (rs.flatMap Finalizable.events) = [r.effect] := by
  intro rs
  induction rs with
  | nil => intro r _ hm; simp at hm
  | cons x xs ih =>
    intro r hnd hm
    rw [List.map_cons, List.nodup_cons] at hnd
    rcases List.mem_cons.1 hm with rfl | hm
    · rw [List.flatMap_cons]
      show effectsOf r.token
        (Event.fire r.token :: r.effect :: xs.flatMap Finalizable.events) = [r.effect]
      rw [effectsOf, if_pos rfl, List.takeWhile_cons]
      simp only [effect_not_fire, Bool.not_false, if_true]
      rw [takeWhile_events]
    · have hne : x.token ≠ r.token := fun h => hnd.1 (h ▸ List.mem_map_of_mem _ hm)
      have h1 : Event.fire x.token ≠ Event.fire r.token := by
        intro h
        exact hne (Event.fire.inj h)
      rw [List.flatMap_cons]
      show effectsOf r.token
        (Event.fire x.token :: x.effect :: xs.flatMap Finalizable.events) = [r.effect]
      rw [effectsOf, if_neg h1, effectsOf, if_neg (effect_ne_fire x r.token)]
      exact ih r hnd.2 hm

theorem count_events_unique (e : Event) : ∀ (rs : List Finalizable) (r : Finalizable),
    rs.Nodup → r ∈ rs → List.count e r.events = 1 →
    (∀ x ∈ rs, x ≠ r → e ∉ x.events) →
    List.count e (rs.flatMap Finalizable.events) = 1 := by
  intro rs
  induction rs with
  | nil => intro r _ hm; simp at hm
  | cons x xs ih =>
    intro r hnd hm hone hother
    rw [List.nodup_cons] at hnd
    rw [List.flatMap_cons, List.count_append]
    rcases List.mem_cons.1 hm with rfl | hm
    · have hz : List.count e (xs.flatMap Finalizable.events) = 0 := by
        apply List.count_eq_zero.2
        intro hmem
        obtain ⟨y, hy, hye⟩ := List.mem_flatMap.1 hmem
        have hyr : y ≠ r := fun h => hnd.1 (h ▸ hy)
        exact hother y (List.mem_cons_of_mem _ hy) hyr hye
      rw [hone, hz]
    · have hxr : x ≠ r := fun h => hnd.1 (h ▸ hm)
      have hz : List.count e x.events = 0 :=
        List.count_eq_zero.2 (hother x (List.mem_cons_self _ _) hxr)
      rw [hz, Nat.zero_add]
      exact ih r hnd.2 hm hone (fun y hy => hother y (List.mem_cons_of_mem _ hy))

theorem count_fire_own (r : Finalizable) : List.count (Event.fire r.token) r.events = 1 := by
  cases hcb : r.callback <;> simp [Finalizable.events, Finalizable.effect, hcb]

theorem count_destroy_own (r : Finalizable) (hcb : r.callback = Callback.finalize_handle) :
    List.count (Event.destroy r.peer) r.events = 1 := by
  simp [Finalizable.events, Finalizable.effect, hcb]

theorem collect_fires (s : State) (r : Finalizable) (h : Inv s) (hm : r ∈ s.finalizables) :
    ∃ s1, collect r.object s = some s1 ∧ Inv s1 ∧
      s1.nextToken = s.nextToken ∧
      (∀ x ∈ s1.finalizables, x.token ≠ r.token) ∧
      effectsOf r.token s1.trace = [r.effect] ∧
      List.count (Event.fire r.token) s1.trace = 1 ∧
      (r.callback = Callback.finalize_handle →
        (∀ p ∈ s1.heap, p.1 ≠ r.peer) ∧ (∀ p ∈ s1.heap, p.2.m_weakHandle ≠ r.token) ∧
        List.count (Event.destroy r.peer) s1.trace
          = List.count (Event.destroy r.peer) s.trace + 1) := by
  obtain ⟨s1, hc⟩ := collect_ok r.object s h (h.obj_live r hm)
  have hinv1 := inv_collect r.object s s1 hc h
  refine ⟨s1, hc, hinv1, ?_⟩
  obtain ⟨_, rfl⟩ := collect_some r.object s s1 hc
  have hmL : r ∈ s.finalizables.filter (fun x => x.object == r.object) :=
    List.mem_filter.2 ⟨hm, by simp⟩
  have hndL : ((s.finalizables.filter (fun x => x.object == r.object)).map
      Finalizable.token).Nodup :=
    h.tok_nodup.sublist ((List.filter_sublist _).map _)
  have hfree : Event.fire r.token ∉ s.trace := h.fire_pending r hm
  refine ⟨rfl, ?_, ?_, ?_, ?_⟩
  · intro x hx hxt
    obtain ⟨hx1, hx2⟩ := List.mem_filter.1 hx
    have := eq_of_nodup_key Finalizable.token s.finalizables x r h.tok_nodup hx1 hm hxt
    rw [this] at hx2
    simp at hx2
  · simp only
    rw [effectsOf_append_left _ _ _ hfree]
    exact effectsOf_events _ r hndL hmL
  · simp only
    rw [List.count_append, List.count_eq_zero.2 hfree, Nat.zero_add]
    apply count_events_unique _ _ r hndL.of_map hmL (count_fire_own r)
    intro x hx hxr hxe
    have hxt := fire_mem_own x r.token hxe
    exact hxr (eq_of_nodup_key Finalizable.token s.finalizables x r h.tok_nodup
      (List.mem_filter.1 hx).1 hm hxt)
  · intro hcb
    have hgone : ∀ p ∈ s.heap.filter
        (fun p => !frees (s.finalizables.filter (fun x => x.object == r.object)) p.1),
        p.1 ≠ r.peer := by
      intro p hp hpa
      have hp2 := (List.mem_filter.1 hp).2
      have hf : frees (s.finalizables.filter (fun x => x.object == r.object)) p.1 = true :=
        (frees_iff _ _).2 ⟨r, hmL, hcb, hpa.symm⟩
      rw [hf] at hp2
      simp at hp2
    refine ⟨hgone, ?_, ?_⟩
    · intro p hp hpt
      have hp1 := (List.mem_filter.1 hp).1
      have hrec := h.rec_of_reg r hm hcb
      have hpe : p = (r.peer, (⟨r.token⟩ : GCHandle)) :=
        eq_of_nodup_key (fun q : Nat × GCHandle => q.2.m_weakHandle) s.heap p _
          h.link_nodup hp1 hrec hpt
      exact hgone p hp (by rw [hpe])
    · simp only
      rw [List.count_append, Nat.add_left_cancel_iff]
      apply count_events_unique _ _ r hndL.of_map hmL (count_destroy_own r hcb)
      intro x hx hxr hxe
      obtain ⟨hxc, hxp⟩ := destroy_mem_own x r.peer hxe
      exact hxr (peer_unique s h x r (List.mem_filter.1 hx).1 hm hxc hcb hxp)

/-! ## Right after a registration -/

theorem after_attach (s s1 : State) (o p t : Nat) (z : Int) (h : Inv s)
    (ha : realm_attach_finalizer o p z s = some (t, s1)) :
    Inv s1 ∧ s1.apiReady = true ∧ t < s1.nextToken ∧ s1.trace = s.trace ∧
      (⟨t, o, p, z, Callback.handle_finalizer⟩ : Finalizable) ∈ s1.finalizables := by
  have hinv := inv_attach o p z s s1 t ha h
  obtain ⟨hr, _, ht, hs1⟩ := attach_some o p z s s1 t ha
  refine ⟨hinv, ?_, ?_, ?_, ?_⟩
  · rw [hs1]; exact hr
  · rw [hs1, ht]; exact Nat.lt_succ_self _
  · rw [hs1]
  · rw [hs1, ht]; exact List.mem_cons_self _ _

theorem after_wrap (s s1 : State) (o a0 a : Nat) (h : Inv s)
    (hw : object_to_gc_handle o a0 s = some (a, s1)) :
    Inv s1 ∧ s1.apiReady = true ∧ s.nextToken < s1.nextToken ∧
      s1.trace = s.trace ∧ (a, (⟨s.nextToken⟩ : GCHandle)) ∈ s1.heap ∧
      (⟨s.nextToken, o, a, 1, Callback.finalize_handle⟩ : Finalizable) ∈ s1.finalizables := by
  have hinv := inv_wrap o a0 s s1 a hw h
  obtain ⟨hr, _, ht, _, hs1⟩ := wrap_some o a0 s s1 a hw
  refine ⟨hinv, ?_, ?_, ?_, ?_, ?_⟩
  · rw [hs1]; exact hr
  · rw [hs1]; exact Nat.lt_succ_self _
  · rw [hs1]
  · rw [hs1, ht]; exact List.mem_cons_self _ _
  · rw [hs1, ht]; exact List.mem_cons_self _ _

/-! ## Runs that leave the linkage of the records alone -/

theorem step_linked (s s1 : State) (op : Op) (h : step s op = some s1)
    (hsafe : linkageSafe s op = true)
    (hk : ∀ p ∈ s.heap, ∃ r ∈ s.finalizables, r.token = p.2.m_weakHandle ∧ r.peer = p.1 ∧
      r.callback = Callback.finalize_handle) :
    ∀ p ∈ s1.heap, ∃ r ∈ s1.finalizables, r.token = p.2.m_weakHandle ∧ r.peer = p.1 ∧
      r.callback = Callback.finalize_handle := by
  cases op with
  | realm_initializeDartApiDL d =>
    simp only [step, Option.some.injEq] at h
    subst h
    exact hk
  | realm_attach_finalizer o q z =>
    obtain ⟨t, ha⟩ := map_snd_some _ _ h
    obtain ⟨_, _, _, rfl⟩ := attach_some o q z s s1 t ha
    intro p hp
    obtain ⟨r, hr, hrest⟩ := hk p hp
    exact ⟨r, List.mem_cons_of_mem _ hr, hrest⟩
  | realm_delete_finalizable t o =>
    obtain ⟨_, rfl⟩ := delete_some t o s s1 h
    intro p hp
    obtain ⟨r, hr, hrt, hrest⟩ := hk p hp
    refine ⟨r, List.mem_filter.2 ⟨hr, ?_⟩, hrt, hrest⟩
    simp only [linkageSafe, List.all_eq_true] at hsafe
    have := hsafe p hp
    rw [← hrt] at this
    exact this
  | object_to_gc_handle o a0 =>
    obtain ⟨a, hw⟩ := map_snd_some _ _ h
    obtain ⟨_, _, _, _, rfl⟩ := wrap_some o a0 s s1 a hw
    intro p hp
    rcases List.mem_cons.1 hp with rfl | hp
    · exact ⟨_, List.mem_cons_self _ _, rfl, rfl, rfl⟩
    · obtain ⟨r, hr, hrest⟩ := hk p hp
      exact ⟨r, List.mem_cons_of_mem _ hr, hrest⟩
  | gc_handle_to_object a =>
    obtain ⟨o, hv⟩ := map_snd_some _ _ h
    rw [resolve_some a s s1 o hv]
    exact hk
  | collect o =>
    obtain ⟨_, rfl⟩ := collect_some o s s1 h
    intro p hp
    obtain ⟨hp1, hp2⟩ := List.mem_filter.1 hp
    obtain ⟨r, hr, hrt, hrp, hrc⟩ := hk p hp1
    refine ⟨r, List.mem_filter.2 ⟨hr, ?_⟩, hrt, hrp, hrc⟩
    by_cases hro : r.object = o
    · have hf : frees (s.finalizables.filter (fun r => r.object == o)) p.1 = true :=
        (frees_iff _ _).2 ⟨r, List.mem_filter.2 ⟨hr, by simpa using hro⟩, hrc, hrp⟩
      rw [hf] at hp2
      simp at hp2
    · simpa using hro

theorem run_linked (ops : List Op) : ∀ (s s1 : State), run s ops = some s1 →
    disciplined s ops = true →
    (∀ p ∈ s.heap, ∃ r ∈ s.finalizables, r.token = p.2.m_weakHandle ∧ r.peer = p.1 ∧
      r.callback = Callback.finalize_handle) →
    ∀ p ∈ s1.heap, ∃ r ∈ s1.finalizables, r.token = p.2.m_weakHandle ∧ r.peer = p.1 ∧
      r.callback = Callback.finalize_handle := by
  induction ops with
  | nil =>
    intro s s1 hr _ hk
    simp only [run, Option.some.injEq] at hr
    subst hr
    exact hk
  | cons op ops ih =>
    intro s s2 hr hd hk
    obtain ⟨s1, hs, hr1⟩ := run_cons s s2 op ops hr
    simp only [disciplined, hs, Bool.and_eq_true] at hd
    exact ih s1 s2 hr1 hd.2 (step_linked s s1 op hs hd.1 hk)

/-! ## The Native Resource Finalizer -/

/-- C1: in a reachable state, after `realm_attach_finalizer(O, R, size)` returned
the registration `t`, and after any further operations that neither detach `t`
nor collect `O`: the callback of `t` has not been started; collecting `O`
succeeds and the callback of `t` then performs exactly one `realm_release(R)`
and nothing else; and whatever happens afterwards, the callback of `t` has been
started exactly once. -/
theorem attach_release_exactly_once (s s1 s2 : State) (O R t : Nat) (size : Int)
    (ops : List Op) (hs : Reachable s)
    (ha : realm_attach_finalizer O R size s = some (t, s1))
    (hrun : run s1 ops = some s2)
    (hnd : ∀ h, Op.realm_delete_finalizable t h ∉ ops)
    (hlive : O ∉ s2.dead) :
    Event.fire t ∉ s2.trace ∧
    ∃ s3, collect O s2 = some s3 ∧
      effectsOf t s3.trace = [Event.release R] ∧
      ∀ ops2 s4, run s3 ops2 = some s4 → List.count (Event.fire t) s4.trace = 1 := by
  obtain ⟨hinv1, _, _, _, hm1⟩ := after_attach s s1 O R t size (inv_reachable s hs) ha
  have hnc : Op.collect O ∉ ops := fun h => hlive (run_collect_dead ops O s1 s2 hrun h)
  have hm2 := run_keep_reg ops ⟨t, O, R, size, Callback.handle_finalizer⟩ s1 s2 hrun hm1 hnd hnc
  have hinv2 := inv_run ops s1 s2 hrun hinv1
  refine ⟨hinv2.fire_pending _ hm2, ?_⟩
  obtain ⟨s3, hc, _, hnt, hgone, heff, hcnt, _⟩ := collect_fires s2 _ hinv2 hm2
  refine ⟨s3, hc, heff, ?_⟩
  intro ops2 s4 hrun2
  have hlt : t < s3.nextToken := by
    rw [hnt]
    exact hinv2.tok_lt _ hm2
  rw [(run_spent_token ops2 t s3 s4 hrun2 hlt hgone).2]
  exact hcnt

/-- Witness of C1: attach `0xAAAA` to object `7`, wrap object `7` and resolve the
token, then collect object `7`. -/
theorem attach_release_exactly_once_witness :
    Reachable Demo.ready ∧
    run Demo.attached [Op.object_to_gc_handle 7 1, Op.gc_handle_to_object 1]
      = some Demo.attachedWrapped ∧
    Event.fire 1 ∉ Demo.attachedWrapped.trace ∧
    ∃ s3, collect 7 Demo.attachedWrapped = some s3 ∧
      effectsOf 1 s3.trace = [Event.release 43690] ∧
      ∀ ops2 s4, run s3 ops2 = some s4 → List.count (Event.fire 1) s4.trace = 1 :=
  ⟨⟨[Op.realm_initializeDartApiDL 0], rfl⟩, rfl,
    attach_release_exactly_once Demo.ready Demo.attached Demo.attachedWrapped 7 43690 1 8
      [Op.object_to_gc_handle 7 1, Op.gc_handle_to_object 1]
      ⟨[Op.realm_initializeDartApiDL 0], rfl⟩ rfl rfl (by simp) (by decide)⟩

/-- C2: in a reachable state, after `realm_attach_finalizer(O, R, size)` returned
the registration `t` and after any further operations that leave `O`
uncollected, `realm_delete_finalizable(t, O)` succeeds and releases nothing; and
whatever happens afterwards, a collection of `O` included, the callback of `t`
is never started.  A later collection of `O` adds no `realm_release(R)` to the
trace unless another pending registration carries the same pointer `R`. -/
theorem detach_prevents_release (s s1 s2 : State) (O R t : Nat) (size : Int)
    (ops1 : List Op) (hs : Reachable s)
    (ha : realm_attach_finalizer O R size s = some (t, s1))
    (hrun : run s1 ops1 = some s2)
    (hlive : O ∉ s2.dead) :
    ∃ s3, realm_delete_finalizable t O s2 = some s3 ∧ s3.trace = s2.trace ∧
      ∀ ops2 s4, run s3 ops2 = some s4 →
        Event.fire t ∉ s4.trace ∧
        ((∀ r ∈ s4.finalizables, r.callback = Callback.handle_finalizer → r.peer ≠ R) →
          ∀ s5, collect O s4 = some s5 →
            List.count (Event.release R) s5.trace = List.count (Event.release R) s4.trace) := by
  obtain ⟨hinv1, hr1, hlt1, htr1, hm1⟩ :=
    after_attach s s1 O R t size (inv_reachable s hs) ha
  have hinv2 := inv_run ops1 s1 s2 hrun hinv1
  obtain ⟨hnt2, hr2, _⟩ := run_frame ops1 s1 s2 hrun
  have hid1 : ∀ r ∈ s1.finalizables, r.token = t → r.object = O := by
    intro r hr ht
    rw [eq_of_nodup_key Finalizable.token s1.finalizables r _ hinv1.tok_nodup hr hm1 ht]
  have hnf2 : Event.fire t ∉ s2.trace := by
    intro hf
    rcases run_fire_dead ops1 t O s1 s2 hrun hlt1 hid1 hf with h | h
    · exact hinv1.fire_pending _ hm1 h
    · exact hlive h
  have hex : ∃ s3, realm_delete_finalizable t O s2 = some s3 := by
    by_cases hp : ∃ r ∈ s2.finalizables, r.token = t
    · obtain ⟨r, hr, ht⟩ := hp
      have hr0 := run_old_token ops1 s1 s2 hrun r hr (by rw [ht]; exact hlt1)
      have hro := hid1 r hr0 ht
      have := delete_ok s2 r (hr2 hr1) hinv2.tok_nodup hr
      rw [ht, hro] at this
      exact ⟨_, this⟩
    · refine ⟨s2, delete_noop t O s2 (hr2 hr1) ?_⟩
      intro r hr ht
      exact hp ⟨r, hr, ht⟩
  obtain ⟨s3, hd⟩ := hex
  refine ⟨s3, hd, ?_, ?_⟩
  · obtain ⟨_, rfl⟩ := delete_some t O s2 s3 hd
    rfl
  · intro ops2 s4 hrun2
    have hgone : ∀ r ∈ s3.finalizables, r.token ≠ t := by
      obtain ⟨_, rfl⟩ := delete_some t O s2 s3 hd
      intro r hr
      simpa using (List.mem_filter.1 hr).2
    have hlt3 : t < s3.nextToken := by
      obtain ⟨_, rfl⟩ := delete_some t O s2 s3 hd
      exact lt_of_lt_of_le hlt1 hnt2
    have htr3 : s3.trace = s2.trace := by
      obtain ⟨_, rfl⟩ := delete_some t O s2 s3 hd
      rfl
    constructor
    · have hc := (run_spent_token ops2 t s3 s4 hrun2 hlt3 hgone).2
      rw [htr3, List.count_eq_zero.2 hnf2] at hc
      exact List.count_eq_zero.1 hc
    · intro hp s5 hc
      exact step_release_count s4 s5 (Op.collect O) R hc hp

/-- Witness of C2: attach `0xAAAA` to object `7`, wrap object `7`, then detach. -/
theorem detach_prevents_release_witness :
    run Demo.attached [Op.object_to_gc_handle 7 1] = some Demo.attachedWrapped ∧
    ∃ s3, realm_delete_finalizable 1 7 Demo.attachedWrapped = some s3 ∧
      s3.trace = Demo.attachedWrapped.trace ∧
      ∀ ops2 s4, run s3 ops2 = some s4 →
        Event.fire 1 ∉ s4.trace ∧
        ((∀ r ∈ s4.finalizables, r.callback = Callback.handle_finalizer → r.peer ≠ 43690) →
          ∀ s5, collect 7 s4 = some s5 →
            List.count (Event.release 43690) s5.trace
              = List.count (Event.release 43690) s4.trace) :=
  ⟨rfl, detach_prevents_release Demo.ready Demo.attached Demo.attachedWrapped 7 43690 1 8
    [Op.object_to_gc_handle 7 1] ⟨[Op.realm_initializeDartApiDL 0], rfl⟩ rfl rfl (by decide)⟩

/-- C8: in a reachable state, after `realm_attach_finalizer(O, R, size)` returned
the registration `t`, once `O` has been collected or `t` has been passed to
`realm_delete_finalizable`, a call `realm_delete_finalizable(t, h)` with any
handle `h` returns and leaves the whole state, the trace of releases included,
as it was. -/
theorem delete_finalizable_idempotent (s s1 s2 : State) (O R t h : Nat) (size : Int)
    (ops : List Op) (hs : Reachable s)
    (ha : realm_attach_finalizer O R size s = some (t, s1))
    (hrun : run s1 ops = some s2)
    (hdone : O ∈ s2.dead ∨ ∃ o, Op.realm_delete_finalizable t o ∈ ops) :
    realm_delete_finalizable t h s2 = some s2 := by
  obtain ⟨hinv1, hr1, hlt1, _, hm1⟩ :=
    after_attach s s1 O R t size (inv_reachable s hs) ha
  have hinv2 := inv_run ops s1 s2 hrun hinv1
  obtain ⟨_, hr2, _⟩ := run_frame ops s1 s2 hrun
  apply delete_noop t h s2 (hr2 hr1)
  rcases hdone with hd | ⟨o, hd⟩
  · intro r hr ht
    have hr0 := run_old_token ops s1 s2 hrun r hr (by rw [ht]; exact hlt1)
    have hre := eq_of_nodup_key Finalizable.token s1.finalizables r _ hinv1.tok_nodup hr0 hm1 ht
    have := hinv2.obj_live r hr
    rw [hre] at this
    exact this hd
  · exact run_deleted ops t o s1 s2 hrun hlt1 hd

/-- Witness of C8: the registration `1` of `Demo.attached` after object `7` was
collected; a further `realm_delete_finalizable(1, 7)` changes nothing. -/
theorem delete_finalizable_idempotent_witness :
    run Demo.attached [Op.collect 7] =
      some { Demo.attached with
        dead := [7], finalizables := [], trace := [Event.fire 1, Event.release 43690] } ∧
    realm_delete_finalizable 1 7
      { Demo.attached with
        dead := [7], finalizables := [], trace := [Event.fire 1, Event.release 43690] } =
      some { Demo.attached with
        dead := [7], finalizables := [], trace := [Event.fire 1, Event.release 43690] } :=
  ⟨rfl, delete_finalizable_idempotent Demo.ready Demo.attached _ 7 43690 1 7 8
    [Op.collect 7] ⟨[Op.realm_initializeDartApiDL 0], rfl⟩ rfl rfl (Or.inl (by decide))⟩

/-- C9: in every state in which the call is defined (the API table is
initialised and `O` is not collected), `realm_attach_finalizer(O, R, size)`
returns a registration `t` and changes nothing but the runtime's table, to which
it adds the one registration `(t, O, R, size, handle_finalizer)`: the trace, and
so the calls of `realm_release`, the heap of records and the set of collected
objects are as before. -/
theorem attach_only_registers (s : State) (O R : Nat) (size : Int)
    (hr : s.apiReady = true) (ho : O ∉ s.dead) :
    ∃ t s1, realm_attach_finalizer O R size s = some (t, s1) ∧
      s1 = { s with
        finalizables := ⟨t, O, R, size, Callback.handle_finalizer⟩ :: s.finalizables,
        nextToken := s.nextToken + 1 } ∧
      s1.trace = s.trace ∧ s1.heap = s.heap ∧ s1.dead = s.dead ∧
      s1.apiReady = s.apiReady :=
  ⟨s.nextToken, _, newFinalizable_ok O R size Callback.handle_finalizer s hr ho,
    rfl, rfl, rfl, rfl, rfl⟩

/-- Witness of C9: the call `realm_attach_finalizer(7, 0xAAAA, 8)` in
`Demo.ready`. -/
theorem attach_only_registers_witness :
    ∃ t s1, realm_attach_finalizer 7 43690 8 Demo.ready = some (t, s1) ∧
      s1 = { Demo.ready with
        finalizables := ⟨t, 7, 43690, 8, Callback.handle_finalizer⟩ :: Demo.ready.finalizables,
        nextToken := Demo.ready.nextToken + 1 } ∧
      s1.trace = Demo.ready.trace ∧ s1.heap = Demo.ready.heap ∧ s1.dead = Demo.ready.dead ∧
      s1.apiReady = Demo.ready.apiReady :=
  attach_only_registers Demo.ready 7 43690 8 rfl (by decide)

/-! ## The Opaque Handle Bridge -/

/-- C3, refuted as stated: after `object_to_gc_handle(7)` returned the token `1`,
the exported operation `realm_delete_finalizable(1, 7)`, applied to the
`m_weakHandle` of the record while object `7` is uncollected, leaves a state in
which `gc_handle_to_object(1)` is undefined and so does not return object `7`. -/
theorem resolve_wrap_roundtrip_counterexample :
    Reachable Demo.ready ∧
    object_to_gc_handle 7 1 Demo.ready = some (1, Demo.wrapped) ∧
    run Demo.wrapped [Op.realm_delete_finalizable 1 7] = some Demo.unlinked ∧
    7 ∉ Demo.unlinked.dead ∧
    gc_handle_to_object 1 Demo.unlinked ≠ some (7, Demo.unlinked) :=
  ⟨⟨[Op.realm_initializeDartApiDL 0], rfl⟩, rfl, rfl, by decide, by decide⟩

/-- C3, amended: in a reachable state, after `object_to_gc_handle(O)` returned the
token `T` of a record `g`, and after any further operations that leave `O`
uncollected and among which no `realm_delete_finalizable` is applied to
`g.m_weakHandle`, `gc_handle_to_object(T)` returns `O` and leaves the state as
it was. -/
theorem resolve_wrap_roundtrip (s s1 s2 : State) (O A T : Nat) (g : GCHandle)
    (ops : List Op) (hs : Reachable s)
    (hw : object_to_gc_handle O A s = some (T, s1))
    (hg : (T, g) ∈ s1.heap)
    (hrun : run s1 ops = some s2)
    (hnd : ∀ h, Op.realm_delete_finalizable g.m_weakHandle h ∉ ops)
    (hlive : O ∉ s2.dead) :
    gc_handle_to_object T s2 = some (O, s2) := by
  obtain ⟨hinv1, hr1, _, _, hrec1, hm1⟩ := after_wrap s s1 O A T (inv_reachable s hs) hw
  have hge : g = ⟨s.nextToken⟩ := pair_of_nodup_fst s1.heap T _ _ hinv1.heap_nodup hg hrec1
  subst hge
  have hnc : Op.collect O ∉ ops := fun h => hlive (run_collect_dead ops O s1 s2 hrun h)
  have hm2 := run_keep_reg ops ⟨s.nextToken, O, T, 1, Callback.finalize_handle⟩ s1 s2 hrun
    hm1 hnd hnc
  have hrec2 := run_keep_rec ops ⟨s.nextToken, O, T, 1, Callback.finalize_handle⟩ T
    ⟨s.nextToken⟩ rfl s1 s2 hrun hinv1 hrec1 hm1 hnd hnc
  have hinv2 := inv_run ops s1 s2 hrun hinv1
  obtain ⟨_, hr2, _⟩ := run_frame ops s1 s2 hrun
  exact resolve_ok s2 T ⟨s.nextToken⟩ ⟨s.nextToken, O, T, 1, Callback.finalize_handle⟩
    (hr2 hr1) hinv2.heap_nodup hrec2 hinv2.tok_nodup hm2 rfl

/-- Witness of the amended C3: wrap object `7`, attach `0xAAAA` to it and detach
that registration, collect another object, then resolve the token. -/
theorem resolve_wrap_roundtrip_witness :
    run Demo.wrapped [Op.realm_attach_finalizer 7 43690 8, Op.realm_delete_finalizable 2 7,
      Op.collect 9] = some { Demo.wrapped with dead := [9], nextToken := 3 } ∧
    gc_handle_to_object 1 { Demo.wrapped with dead := [9], nextToken := 3 } =
      some (7, { Demo.wrapped with dead := [9], nextToken := 3 }) :=
  ⟨rfl, resolve_wrap_roundtrip Demo.ready Demo.wrapped _ 7 1 1 ⟨1⟩
    [Op.realm_attach_finalizer 7 43690 8, Op.realm_delete_finalizable 2 7, Op.collect 9]
    ⟨[Op.realm_initializeDartApiDL 0], rfl⟩ rfl (by decide) rfl (by simp) (by decide)⟩

/-- C4, refuted as stated: the token `1` was produced by `object_to_gc_handle(7)`
and object `7` is uncollected, but after `realm_delete_finalizable(1, 7)` was
applied to the `m_weakHandle` of the record, a call `gc_handle_to_object(1)`
returns no handle, so no two successive calls return handles to the same
identity. -/
theorem resolve_twice_same_counterexample :
    object_to_gc_handle 7 1 Demo.ready = some (1, Demo.wrapped) ∧
    run Demo.wrapped [Op.realm_delete_finalizable 1 7] = some Demo.unlinked ∧
    7 ∉ Demo.unlinked.dead ∧
    ¬ ∃ h1 s3 h2 s4, gc_handle_to_object 1 Demo.unlinked = some (h1, s3) ∧
      gc_handle_to_object 1 s3 = some (h2, s4) ∧ h1 = h2 := by
  refine ⟨rfl, rfl, by decide, ?_⟩
  rintro ⟨h1, s3, _, _, hv, _⟩
  have hn : gc_handle_to_object 1 Demo.unlinked = none := rfl
  rw [hn] at hv
  exact Option.noConfusion hv

/-- C4, amended: in a reachable state, after `object_to_gc_handle(O)` returned the
token `T` of a record `g`, and after any further operations that leave `O`
uncollected and among which no `realm_delete_finalizable` is applied to
`g.m_weakHandle`: a first call `gc_handle_to_object(T)` returns a handle and a
state, a second call in that state returns a handle and a state, both handles
are `O`, and both states are the state before the first call. -/
theorem resolve_twice_same (s s1 s2 : State) (O A T : Nat) (g : GCHandle)
    (ops : List Op) (hs : Reachable s)
    (hw : object_to_gc_handle O A s = some (T, s1))
    (hg : (T, g) ∈ s1.heap)
    (hrun : run s1 ops = some s2)
    (hnd : ∀ h, Op.realm_delete_finalizable g.m_weakHandle h ∉ ops)
    (hlive : O ∉ s2.dead) :
    ∃ h1 s3 h2 s4, gc_handle_to_object T s2 = some (h1, s3) ∧
      gc_handle_to_object T s3 = some (h2, s4) ∧
      h1 = O ∧ h2 = O ∧ s3 = s2 ∧ s4 = s2 := by
  obtain ⟨hinv1, hr1, _, _, hrec1, hm1⟩ := after_wrap s s1 O A T (inv_reachable s hs) hw
  have hge : g = ⟨s.nextToken⟩ := pair_of_nodup_fst s1.heap T _ _ hinv1.heap_nodup hg hrec1
  subst hge
  have hnc : Op.collect O ∉ ops := fun h => hlive (run_collect_dead ops O s1 s2 hrun h)
  have hm2 := run_keep_reg ops ⟨s.nextToken, O, T, 1, Callback.finalize_handle⟩ s1 s2 hrun
    hm1 hnd hnc
  have hrec2 := run_keep_rec ops ⟨s.nextToken, O, T, 1, Callback.finalize_handle⟩ T
    ⟨s.nextToken⟩ rfl s1 s2 hrun hinv1 hrec1 hm1 hnd hnc
  have hinv2 := inv_run ops s1 s2 hrun hinv1
  obtain ⟨_, hr2, _⟩ := run_frame ops s1 s2 hrun
  have hres := resolve_ok s2 T ⟨s.nextToken⟩ ⟨s.nextToken, O, T, 1, Callback.finalize_handle⟩
    (hr2 hr1) hinv2.heap_nodup hrec2 hinv2.tok_nodup hm2 rfl
  exact ⟨O, s2, O, s2, hres, hres, rfl, rfl, rfl, rfl⟩

/-- Witness of the amended C4: wrap object `7`, then wrap object `9`, attach
`0xAAAA` to object `7`, collect object `9`, and resolve the first token twice. -/
theorem resolve_twice_same_witness :
    run Demo.wrapped [Op.object_to_gc_handle 9 2, Op.realm_attach_finalizer 7 43690 8,
      Op.collect 9] = some Demo.wrappedBusy ∧
    ∃ h1 s3 h2 s4, gc_handle_to_object 1 Demo.wrappedBusy = some (h1, s3) ∧
      gc_handle_to_object 1 s3 = some (h2, s4) ∧
      h1 = 7 ∧ h2 = 7 ∧ s3 = Demo.wrappedBusy ∧ s4 = Demo.wrappedBusy :=
  ⟨rfl, resolve_twice_same Demo.ready Demo.wrapped Demo.wrappedBusy 7 1 1 ⟨1⟩
    [Op.object_to_gc_handle 9 2, Op.realm_attach_finalizer 7 43690 8, Op.collect 9]
    ⟨[Op.realm_initializeDartApiDL 0], rfl⟩ rfl (by decide) rfl (by simp) (by decide)⟩

/-- C5, refuted as stated: first, after `object_to_gc_handle(7)` returned the
token `1` and `realm_delete_finalizable(1, 7)` was applied to the `m_weakHandle`
of the record, collecting object `7` runs no finalizer: no `GCHandle` is deleted
and the record at address `1` stays on the heap.  Second, after the record at
address `1` was deleted by its finalizer, a later `new` may return the address
`1` again; the token `1` is then resolvable again, through the new record. -/
theorem record_finalized_exactly_once_counterexample :
    object_to_gc_handle 7 1 Demo.ready = some (1, Demo.wrapped) ∧
    run Demo.wrapped [Op.realm_delete_finalizable 1 7, Op.collect 7] =
      some { Demo.unlinked with dead := [7] } ∧
    List.count (Event.destroy 1) ({ Demo.unlinked with dead := [7] } : State).trace = 0 ∧
    (1, (⟨1⟩ : GCHandle)) ∈ ({ Demo.unlinked with dead := [7] } : State).heap ∧
    run Demo.wrapped [Op.collect 7, Op.object_to_gc_handle 9 1] = some Demo.reused ∧
    gc_handle_to_object 1 Demo.reused = some (9, Demo.reused) :=
  ⟨rfl, rfl, by decide, by decide, rfl, rfl⟩

/-- C5, amended: in a reachable state, after `object_to_gc_handle(O)` returned the
token `T` of a record `g`, and after any further operations that leave `O`
uncollected and among which no `realm_delete_finalizable` is applied to
`g.m_weakHandle`: collecting `O` succeeds, the callback of `g.m_weakHandle`
performs exactly the `delete` of the record at `T`, this collection deletes a
record at `T` exactly once, and right after it no live record is at `T` and
`gc_handle_to_object(T)` is undefined; and whatever happens afterwards, the
callback of `g.m_weakHandle` has been started exactly once, what it did is that
one `delete`, `g.m_weakHandle` is not registered, and no live record carries
`g.m_weakHandle`: a record that `new` places at `T` later is another record. -/
theorem record_finalized_exactly_once (s s1 s2 : State) (O A T : Nat) (g : GCHandle)
    (ops : List Op) (hs : Reachable s)
    (hw : object_to_gc_handle O A s = some (T, s1))
    (hg : (T, g) ∈ s1.heap)
    (hrun : run s1 ops = some s2)
    (hnd : ∀ h, Op.realm_delete_finalizable g.m_weakHandle h ∉ ops)
    (hlive : O ∉ s2.dead) :
    ∃ s3, collect O s2 = some s3 ∧
      effectsOf g.m_weakHandle s3.trace = [Event.destroy T] ∧
      List.count (Event.destroy T) s3.trace = List.count (Event.destroy T) s2.trace + 1 ∧
      (∀ p ∈ s3.heap, p.1 ≠ T) ∧ gc_handle_to_object T s3 = none ∧
      ∀ ops2 s4, run s3 ops2 = some s4 →
        List.count (Event.fire g.m_weakHandle) s4.trace = 1 ∧
        effectsOf g.m_weakHandle s4.trace = [Event.destroy T] ∧
        (∀ r ∈ s4.finalizables, r.token ≠ g.m_weakHandle) ∧
        (∀ p ∈ s4.heap, p.2.m_weakHandle ≠ g.m_weakHandle) := by
  obtain ⟨hinv1, _, _, _, hrec1, hm1⟩ := after_wrap s s1 O A T (inv_reachable s hs) hw
  have hge : g = ⟨s.nextToken⟩ := pair_of_nodup_fst s1.heap T _ _ hinv1.heap_nodup hg hrec1
  subst hge
  have hnc : Op.collect O ∉ ops := fun h => hlive (run_collect_dead ops O s1 s2 hrun h)
  have hm2 := run_keep_reg ops ⟨s.nextToken, O, T, 1, Callback.finalize_handle⟩ s1 s2 hrun
    hm1 hnd hnc
  have hinv2 := inv_run ops s1 s2 hrun hinv1
  obtain ⟨s3, hc, _, hnt, hspent, heff, hcnt, hfh⟩ := collect_fires s2 _ hinv2 hm2
  obtain ⟨hgone, hlink, hdel⟩ := hfh rfl
  refine ⟨s3, hc, heff, hdel, hgone, resolve_dangling s3 T hgone, ?_⟩
  intro ops2 s4 hrun2
  have hlt : s.nextToken < s3.nextToken := by
    rw [hnt]
    exact hinv2.tok_lt _ hm2
  have hfired : Event.fire s.nextToken ∈ s3.trace :=
    List.count_pos_iff.1 (by rw [hcnt]; exact Nat.one_pos)
  obtain ⟨hspent4, hcnt4⟩ := run_spent_token ops2 s.nextToken s3 s4 hrun2 hlt hspent
  refine ⟨by rw [hcnt4]; exact hcnt, ?_, hspent4,
    run_spent_link ops2 s.nextToken s3 s4 hrun2 hlt hlink⟩
  rw [run_effects_stable ops2 s.nextToken s3 s4 hrun2 hfired]
  exact heff

/-- Witness of the amended C5: wrap object `7`, attach `0xAAAA` to it, collect
object `7`. -/
theorem record_finalized_exactly_once_witness :
    run Demo.wrapped [Op.realm_attach_finalizer 7 43690 8] =
      some { Demo.wrapped with
        finalizables := ⟨2, 7, 43690, 8, Callback.handle_finalizer⟩ :: Demo.wrapped.finalizables,
        nextToken := 3 } ∧
    ∃ s3, collect 7 { Demo.wrapped with
        finalizables := ⟨2, 7, 43690, 8, Callback.handle_finalizer⟩ :: Demo.wrapped.finalizables,
        nextToken := 3 } = some s3 ∧
      effectsOf 1 s3.trace = [Event.destroy 1] ∧
      List.count (Event.destroy 1) s3.trace = 0 + 1 ∧
      (∀ p ∈ s3.heap, p.1 ≠ 1) ∧ gc_handle_to_object 1 s3 = none ∧
      ∀ ops2 s4, run s3 ops2 = some s4 →
        List.count (Event.fire 1) s4.trace = 1 ∧
        effectsOf 1 s4.trace = [Event.destroy 1] ∧
        (∀ r ∈ s4.finalizables, r.token ≠ 1) ∧
        (∀ p ∈ s4.heap, p.2.m_weakHandle ≠ 1) :=
  ⟨rfl, record_finalized_exactly_once Demo.ready Demo.wrapped _ 7 1 1 ⟨1⟩
    [Op.realm_attach_finalizer 7 43690 8] ⟨[Op.realm_initializeDartApiDL 0], rfl⟩ rfl
    (by decide) rfl (by simp) (by decide)⟩

/-- C6, refuted as stated: the state `Demo.unlinked` is reached through the
exported operations `realm_initializeDartApiDL`, `object_to_gc_handle(7)` and
`realm_delete_finalizable(1, 7)`; in it the record at address `1` is live, its
`m_weakHandle` is not registered with the runtime and `gc_handle_to_object(1)`
is undefined; collecting object `7` then leaves the record live. -/
theorem live_record_recovers_counterexample :
    run State.initial [Op.realm_initializeDartApiDL 0, Op.object_to_gc_handle 7 1,
      Op.realm_delete_finalizable 1 7] = some Demo.unlinked ∧
    (1, (⟨1⟩ : GCHandle)) ∈ Demo.unlinked.heap ∧
    Demo.unlinked.finalizables = [] ∧
    gc_handle_to_object 1 Demo.unlinked = none ∧
    run Demo.unlinked [Op.collect 7] = some { Demo.unlinked with dead := [7] } ∧
    (1, (⟨1⟩ : GCHandle)) ∈ ({ Demo.unlinked with dead := [7] } : State).heap :=
  ⟨rfl, by decide, rfl, rfl, rfl, by decide⟩

/-- C6, amended: in every state reached from the initial state through the
exported operations and collector steps in which `realm_delete_finalizable` is
never applied to the `m_weakHandle` of a record that is live at that time,
every live record has its `m_weakHandle` registered with the runtime, with the
record as payload and `finalize_handle` as callback, on an object that is not
collected, and `gc_handle_to_object` on the address of the record returns that
object. -/
theorem live_record_recovers (ops : List Op) (s : State) (p : Nat × GCHandle)
    (hrun : run State.initial ops = some s)
    (hd : disciplined State.initial ops = true)
    (hp : p ∈ s.heap) :
    ∃ r ∈ s.finalizables, r.token = p.2.m_weakHandle ∧ r.peer = p.1 ∧
      r.callback = Callback.finalize_handle ∧ r.object ∉ s.dead ∧
      gc_handle_to_object p.1 s = some (r.object, s) := by
  have hinv := inv_run ops State.initial s hrun inv_initial
  have hk := run_linked ops State.initial s hrun hd (by simp [State.initial])
  obtain ⟨r, hr, hrt, hrp, hrc⟩ := hk p hp
  exact ⟨r, hr, hrt, hrp, hrc, hinv.obj_live r hr,
    resolve_ok s p.1 p.2 r (hinv.ready r hr) hinv.heap_nodup hp hinv.tok_nodup hr hrt⟩

/-- Witness of the amended C6: attach `0xAAAA` to object `7`, wrap object `7`, and
detach the registration of `0xAAAA`. -/
theorem live_record_recovers_witness :
    run State.initial [Op.realm_initializeDartApiDL 0, Op.realm_attach_finalizer 7 43690 8,
      Op.object_to_gc_handle 7 1, Op.realm_delete_finalizable 1 7] =
      some { Demo.attachedWrapped with
        finalizables := [⟨2, 7, 1, 1, Callback.finalize_handle⟩] } ∧
    ∃ r ∈ ({ Demo.attachedWrapped with
        finalizables := [⟨2, 7, 1, 1, Callback.finalize_handle⟩] } : State).finalizables,
      r.token = 2 ∧ r.peer = 1 ∧ r.callback = Callback.finalize_handle ∧
      r.object ∉ ({ Demo.attachedWrapped with
        finalizables := [⟨2, 7, 1, 1, Callback.finalize_handle⟩] } : State).dead ∧
      gc_handle_to_object 1 { Demo.attachedWrapped with
        finalizables := [⟨2, 7, 1, 1, Callback.finalize_handle⟩] } =
        some (r.object, { Demo.attachedWrapped with
          finalizables := [⟨2, 7, 1, 1, Callback.finalize_handle⟩] }) :=
  ⟨rfl, live_record_recovers
    [Op.realm_initializeDartApiDL 0, Op.realm_attach_finalizer 7 43690 8,
      Op.object_to_gc_handle 7 1, Op.realm_delete_finalizable 1 7] _ (1, ⟨2⟩) rfl (by decide)
    (by decide)⟩

/-- C7: for every state and every step that is defined, a record that is live
before an exported operation is live, with the same content, after it; and a
record that is live before a step and not after it was removed by the collection
of an object on which `finalize_handle` was registered with the address of the
record as payload, and the trace of that step holds the `delete` of the
record. -/
theorem record_destroyed_only_by_finalizer (s s1 : State) (op : Op) (p : Nat × GCHandle)
    (h : step s op = some s1) (hp : p ∈ s.heap) :
    ((∀ o, op ≠ Op.collect o) → p ∈ s1.heap) ∧
    (p ∉ s1.heap → ∃ r ∈ s.finalizables, op = Op.collect r.object ∧
      r.callback = Callback.finalize_handle ∧ r.peer = p.1 ∧
      ∃ d, s1.trace = s.trace ++ d ∧ Event.destroy p.1 ∈ d) := by
  constructor
  · intro hne
    rcases step_keep_rec s s1 op p h hp with h1 | ⟨r, _, hop, _⟩
    · exact h1
    · exact absurd hop (hne r.object)
  · intro hgone
    rcases step_keep_rec s s1 op p h hp with h1 | ⟨r, hr, hop, hrc, hrp⟩
    · exact absurd h1 hgone
    · refine ⟨r, hr, hop, hrc, hrp, ?_⟩
      subst hop
      obtain ⟨_, hs1⟩ := collect_some r.object s s1 h
      refine ⟨_, by rw [hs1], ?_⟩
      exact (destroy_mem_events _ _).2 ⟨r, List.mem_filter.2 ⟨hr, by simp⟩, hrc, hrp⟩

/-- Witness of C7: the record of `Demo.wrapped` survives the exported operation
`realm_delete_finalizable(1, 7)`. -/
theorem record_destroyed_only_by_finalizer_witness :
    step Demo.wrapped (Op.realm_delete_finalizable 1 7) = some Demo.unlinked ∧
    (1, (⟨1⟩ : GCHandle)) ∈ Demo.unlinked.heap :=
  ⟨rfl, (record_destroyed_only_by_finalizer Demo.wrapped Demo.unlinked
    (Op.realm_delete_finalizable 1 7) (1, ⟨1⟩) rfl (by decide)).1 (by simp)⟩

/-- C10, refuted as stated: two calls `object_to_gc_handle(7)` returned the tokens
`1` and `2`; after `realm_delete_finalizable(1, 7)` was applied to the
`m_weakHandle` of the first record, object `7` is uncollected and the token `1`
does not resolve, and collecting object `7` deletes the second record only: the
first record is never deleted and stays on the heap. -/
theorem wrap_twice_distinct_counterexample :
    object_to_gc_handle 7 1 Demo.ready = some (1, Demo.wrapped) ∧
    object_to_gc_handle 7 2 Demo.wrapped = some (2, Demo.wrappedTwice) ∧
    run Demo.wrappedTwice [Op.realm_delete_finalizable 1 7] =
      some { Demo.wrappedTwice with
        finalizables := [⟨2, 7, 2, 1, Callback.finalize_handle⟩] } ∧
    gc_handle_to_object 1 { Demo.wrappedTwice with
        finalizables := [⟨2, 7, 2, 1, Callback.finalize_handle⟩] } = none ∧
    collect 7 { Demo.wrappedTwice with
        finalizables := [⟨2, 7, 2, 1, Callback.finalize_handle⟩] } =
      some { Demo.unlinked with
        dead := [7], nextToken := 3, trace := [Event.fire 2, Event.destroy 2] } ∧
    List.count (Event.destroy 1) [Event.fire 2, Event.destroy 2] = 0 ∧
    (1, (⟨1⟩ : GCHandle)) ∈ Demo.unlinked.heap :=
  ⟨rfl, rfl, rfl, rfl, rfl, by decide, by decide⟩

/-- C10, amended: in a reachable state in which the API table is initialised
and `O` is not collected, a call `object_to_gc_handle(O)` whose `new` returns an
address `A1` that holds no live record returns `A1`; a second call whose `new`
returns an address `A2` that holds no live record then returns `A2`, and `A2` is
not `A1`; the two records are live with different `m_weakHandle`s `w1` and `w2`,
registered as `(w1, O, A1, 1, finalize_handle)` and `(w2, O, A2, 1,
finalize_handle)`.  After any further operations that leave `O` uncollected and
among which no `realm_delete_finalizable` is applied to `w1` or `w2`,
`gc_handle_to_object` returns `O` for both tokens, and collecting `O` succeeds:
the callback of `w1` performs exactly the `delete` of the record at `A1`, that of
`w2` exactly the `delete` of the record at `A2`, the collection deletes a record
at each of the two addresses exactly once, neither is on the heap after it, and
whatever happens afterwards each of the two callbacks has been started exactly
once. -/
theorem wrap_twice_distinct (s : State) (O A1 : Nat) (hs : Reachable s)
    (hr : s.apiReady = true) (ho : O ∉ s.dead) (hA1 : ∀ p ∈ s.heap, p.1 ≠ A1) :
    ∃ s1, object_to_gc_handle O A1 s = some (A1, s1) ∧
      ∀ A2, (∀ p ∈ s1.heap, p.1 ≠ A2) →
        ∃ s2 w1 w2, object_to_gc_handle O A2 s1 = some (A2, s2) ∧ A1 ≠ A2 ∧ w1 ≠ w2 ∧
          (A1, (⟨w1⟩ : GCHandle)) ∈ s2.heap ∧ (A2, (⟨w2⟩ : GCHandle)) ∈ s2.heap ∧
          (⟨w1, O, A1, 1, Callback.finalize_handle⟩ : Finalizable) ∈ s2.finalizables ∧
          (⟨w2, O, A2, 1, Callback.finalize_handle⟩ : Finalizable) ∈ s2.finalizables ∧
          ∀ ops s3, run s2 ops = some s3 → O ∉ s3.dead →
            (∀ h, Op.realm_delete_finalizable w1 h ∉ ops) →
            (∀ h, Op.realm_delete_finalizable w2 h ∉ ops) →
            gc_handle_to_object A1 s3 = some (O, s3) ∧
            gc_handle_to_object A2 s3 = some (O, s3) ∧
            ∃ s4, collect O s3 = some s4 ∧
              effectsOf w1 s4.trace = [Event.destroy A1] ∧
              effectsOf w2 s4.trace = [Event.destroy A2] ∧
              List.count (Event.destroy A1) s4.trace
                = List.count (Event.destroy A1) s3.trace + 1 ∧
              List.count (Event.destroy A2) s4.trace
                = List.count (Event.destroy A2) s3.trace + 1 ∧
              (∀ p ∈ s4.heap, p.1 ≠ A1 ∧ p.1 ≠ A2) ∧
              ∀ ops2 s5, run s4 ops2 = some s5 →
                List.count (Event.fire w1) s5.trace = 1 ∧
                List.count (Event.fire w2) s5.trace = 1 := by
  have hw1 := wrap_ok O A1 s hr ho hA1
  obtain ⟨hinv1, hr1, _, _, hrec1, hm1⟩ := after_wrap s _ O A1 A1 (inv_reachable s hs) hw1
  refine ⟨_, hw1, ?_⟩
  intro A2 hA2
  have hw2 := wrap_ok O A2 _ hr1 ho hA2
  obtain ⟨hinv2, hr2, _, _, hrec2, hm2⟩ := after_wrap _ _ O A2 A2 hinv1 hw2
  have hrec12 := List.mem_cons_of_mem (A2, (⟨s.nextToken + 1⟩ : GCHandle)) hrec1
  have hm12 := List.mem_cons_of_mem
    (⟨s.nextToken + 1, O, A2, 1, Callback.finalize_handle⟩ : Finalizable) hm1
  refine ⟨_, s.nextToken, s.nextToken + 1, hw2, fun e => hA2 _ hrec1 e,
    Nat.ne_of_lt (Nat.lt_succ_self _), hrec12, hrec2, hm12, hm2, ?_⟩
  intro ops s3 hrun hlive hnd1 hnd2
  have hnc : Op.collect O ∉ ops := fun h => hlive (run_collect_dead ops O _ s3 hrun h)
  have hm13 := run_keep_reg ops ⟨s.nextToken, O, A1, 1, Callback.finalize_handle⟩ _ s3 hrun
    hm12 hnd1 hnc
  have hm23 := run_keep_reg ops ⟨s.nextToken + 1, O, A2, 1, Callback.finalize_handle⟩ _ s3
    hrun hm2 hnd2 hnc
  have hrec13 := run_keep_rec ops ⟨s.nextToken, O, A1, 1, Callback.finalize_handle⟩ A1
    ⟨s.nextToken⟩ rfl _ s3 hrun hinv2 hrec12 hm12 hnd1 hnc
  have hrec23 := run_keep_rec ops ⟨s.nextToken + 1, O, A2, 1, Callback.finalize_handle⟩ A2
    ⟨s.nextToken + 1⟩ rfl _ s3 hrun hinv2 hrec2 hm2 hnd2 hnc
  have hinv3 := inv_run ops _ s3 hrun hinv2
  obtain ⟨_, hr3, _⟩ := run_frame ops _ s3 hrun
  obtain ⟨s4, hc, _, hnt, hsp1, heff1, hcnt1, hfh1⟩ := collect_fires s3 _ hinv3 hm13
  obtain ⟨s4b, hcb, _, _, hsp2, heff2, hcnt2, hfh2⟩ := collect_fires s3 _ hinv3 hm23
  have he : s4b = s4 := Option.some.inj (hcb.symm.trans hc)
  subst he
  obtain ⟨hg1, _, hd1⟩ := hfh1 rfl
  obtain ⟨hg2, _, hd2⟩ := hfh2 rfl
  refine ⟨resolve_ok s3 A1 _ _ (hr3 hr2) hinv3.heap_nodup hrec13 hinv3.tok_nodup hm13 rfl,
    resolve_ok s3 A2 _ _ (hr3 hr2) hinv3.heap_nodup hrec23 hinv3.tok_nodup hm23 rfl,
    s4b, hcb, heff1, heff2, hd1, hd2, fun p hp => ⟨hg1 p hp, hg2 p hp⟩, ?_⟩
  intro ops2 s5 hrun2
  have hlt1 : s.nextToken < s4b.nextToken := by
    rw [hnt]
    exact hinv3.tok_lt _ hm13
  have hlt2 : s.nextToken + 1 < s4b.nextToken := by
    rw [hnt]
    exact hinv3.tok_lt _ hm23
  exact ⟨by rw [(run_spent_token ops2 _ s4b s5 hrun2 hlt1 hsp1).2]; exact hcnt1,
    by rw [(run_spent_token ops2 _ s4b s5 hrun2 hlt2 hsp2).2]; exact hcnt2⟩

/-- Witness of the amended C10: two calls `object_to_gc_handle(7)` in
`Demo.ready`, the first with `new` returning the address `1`. -/
theorem wrap_twice_distinct_witness :
    object_to_gc_handle 7 1 Demo.ready = some (1, Demo.wrapped) ∧
    object_to_gc_handle 7 2 Demo.wrapped = some (2, Demo.wrappedTwice) ∧
    ∃ s1, object_to_gc_handle 7 1 Demo.ready = some (1, s1) ∧
      ∀ A2, (∀ p ∈ s1.heap, p.1 ≠ A2) →
        ∃ s2 w1 w2, object_to_gc_handle 7 A2 s1 = some (A2, s2) ∧ 1 ≠ A2 ∧ w1 ≠ w2 ∧
          (1, (⟨w1⟩ : GCHandle)) ∈ s2.heap ∧ (A2, (⟨w2⟩ : GCHandle)) ∈ s2.heap ∧
          (⟨w1, 7, 1, 1, Callback.finalize_handle⟩ : Finalizable) ∈ s2.finalizables ∧
          (⟨w2, 7, A2, 1, Callback.finalize_handle⟩ : Finalizable) ∈ s2.finalizables ∧
          ∀ ops s3, run s2 ops = some s3 → 7 ∉ s3.dead →
            (∀ h, Op.realm_delete_finalizable w1 h ∉ ops) →
            (∀ h, Op.realm_delete_finalizable w2 h ∉ ops) →
            gc_handle_to_object 1 s3 = some (7, s3) ∧
            gc_handle_to_object A2 s3 = some (7, s3) ∧
            ∃ s4, collect 7 s3 = some s4 ∧
              effectsOf w1 s4.trace = [Event.destroy 1] ∧
              effectsOf w2 s4.trace = [Event.destroy A2] ∧
              List.count (Event.destroy 1) s4.trace
                = List.count (Event.destroy 1) s3.trace + 1 ∧
              List.count (Event.destroy A2) s4.trace
                = List.count (Event.destroy A2) s3.trace + 1 ∧
              (∀ p ∈ s4.heap, p.1 ≠ 1 ∧ p.1 ≠ A2) ∧
              ∀ ops2 s5, run s4 ops2 = some s5 →
                List.count (Event.fire w1) s5.trace = 1 ∧
                List.count (Event.fire w2) s5.trace = 1 :=
  ⟨rfl, rfl, wrap_twice_distinct Demo.ready 7 1 ⟨[Op.realm_initializeDartApiDL 0], rfl⟩ rfl
    (by decide) (by simp [Demo.ready])⟩

end RealmDart
